import Mathlib

/-!
Verification of the Heuristic Variant Path Generator of Traversome
(`traversome/PathGenerator.py`).

The development shallowly embeds the operations of `PathGenerator`:
the coverage model (`__get_cov_mean`), the multiplicity likelihood
evaluator (`__cal_multiplicity_like`), the stochastic stopping rule
(`__heuristic_check_multiplicity`), the hetero-unit decomposer
(`__decompose_hetero_units`), the single-process search coordinator
(`__gen_heuristic_paths_uni`) and the constructor validation.
Python floats are modelled by exact rationals `ℚ`; the additive
normalization constant of the normal log-density, which is irrational but
cancels in every difference the code takes, is carried as an opaque
rational parameter.  Functions of the external assembly-graph collaborator
(path reversal, circularity check, coverage check, canonical rotation,
sub-path enumeration), which are not part of the two source files, are
modelled from the spec where needed and documented as such.
-/

/-- An oriented contig reference: (contig id, end/orientation flag).
Contig names (Python strings) are represented by natural numbers. -/
abbrev OV := ℕ × Bool

/-- A path through the assembly graph: an ordered sequence of oriented
contig references. -/
abbrev VPath := List OV

/-- Errors surfaced by the embedded operations, mirroring the Python
exceptions: `emptyPath` (the `assert len(path)` of `__check_path`),
`vertexNotInGraph` (the explicit `raise` of `__check_path`; the spec's
"PreconditionError: path contains a contig absent from the graph"),
`zeroWeights` (`ZeroDivisionError` raised by `np.average` when the weights
sum to zero, or by the normalization of a weight list by a zero total),
`emptyChoices` (`random.choices` invoked on an empty population),
`shapeMismatch` (numpy broadcast `ValueError` when arrays of different
lengths are multiplied elementwise), `zeroDiv` (`ZeroDivisionError` of a
plain float division). -/
inductive Err where
  | emptyPath
  | vertexNotInGraph
  | zeroWeights
  | emptyChoices
  | shapeMismatch
  | zeroDiv
  deriving DecidableEq, Repr

deriving instance DecidableEq for Except

/-- The read-only context of a generation run: the assembly-graph data the
generator queries (vertex list `verts`, per-contig length `vlen`, end
connections `conn`), the contig coverage map `cov`
(`self.contig_coverages`), the candidate-single-copy vertex set `sc`
(`self.__candidate_single_copy_vs`) and the configuration values used by
the embedded operations. -/
structure Ctx where
  verts : List ℕ
  vlen : ℕ → ℕ
  cov : ℕ → ℚ
  conn : ℕ → Bool → List OV
  sc : List ℕ
  minUnitSimilarity : ℚ
  forceCircular : Bool
  heteroChromosome : Bool

/-- Stable insertion used by `sortBy`: the new element is placed before the
first element it strictly precedes, hence after all elements equal to it,
matching the stability of Python's `sorted`. -/
def insertBy (lt : α → α → Bool) (x : α) : List α → List α
  | [] => [x]
  | y :: ys => if lt x y then x :: y :: ys else y :: insertBy lt x ys

/-- Stable insertion sort by a strict comparator, modelling Python's
`sorted` / `list.sort`. -/
def sortBy (lt : α → α → Bool) : List α → List α
  | [] => []
  | x :: xs => insertBy lt x (sortBy lt xs)

/-- Python's ordering on oriented contig tuples `(name, end)`:
lexicographic, with `False < True` on the end flag. -/
def ovLt (a b : OV) : Bool := a.1 < b.1 || (a.1 = b.1 && (!a.2 && b.2))

/-- Lexicographic order on lists of naturals (Python's order on tuples of
ints), used to sort anchor-index lists. -/
def natListLt : List ℕ → List ℕ → Bool
  | [], [] => false
  | [], _ :: _ => true
  | _ :: _, [] => false
  | a :: as, b :: bs => a < b || (a = b && natListLt as bs)

/-- Lexicographic order on paths (Python's order on tuples of `(name, end)`
tuples), used to sort the unit paths of a decomposition scheme. -/
def vpathLt : VPath → VPath → Bool
  | [], [] => false
  | [], _ :: _ => true
  | _ :: _, [] => false
  | a :: as, b :: bs => ovLt a b || (a = b && vpathLt as bs)

/-- First-occurrence deduplication, the key order of a Python `dict` /
`OrderedDict` built by repeated insertion. -/
def dedupFirst [DecidableEq α] : List α → List α
  | [] => []
  | x :: xs => x :: (dedupFirst xs).filter (fun y => y ≠ x)

/-- Number of occurrences of contig id `v` among the oriented references of
`p` (`[v_n for v_n, v_e in path].count(v)`). -/
def nameCount (p : VPath) (v : ℕ) : ℕ := (p.map Prod.fst).count v

/-- `__check_path`: assert the path is non-empty (`assert len(path)`), then
raise if some contig id is absent from the assembly graph. -/
def checkPath (ctx : Ctx) (p : VPath) : Except Err Unit :=
  if p = [] then .error .emptyPath
  else if p.all (fun v => ctx.verts.contains v.1) then .ok ()
  else .error .vertexNotInGraph

/-- `np.average(values, weights=weights)`: the weighted mean, raising
`ZeroDivisionError` when the weights sum to zero (in particular on empty
input). -/
def npAverage (values weights : List ℚ) : Except Err ℚ :=
  if weights.sum = 0 then .error .zeroWeights
  else .ok (((values.zip weights).map (fun vw => vw.1 * vw.2)).sum / weights.sum)

/-- The per-contig occurrence count left after applying the exclusion path
(`v_names[del_n] -= del_names[del_n]`): the exclusion is skipped entirely
(`logger.error`, no subtraction) for a contig whose requested exclusion
exceeds its occurrence count. -/
def exclCnt (p ex : VPath) (v : ℕ) : ℕ :=
  if nameCount p v < nameCount ex v then nameCount p v
  else nameCount p v - nameCount ex v

/-- `__get_cov_mean(path, exclude_path, return_std=False)`.  Per contig id
of `path`, the per-copy coverage `cov/count` weighted by `len*count`; when
`exclude_path` is given, its occurrence counts are subtracted first — but
when a contig's requested exclusion exceeds its count, the code only logs
an error (`logger.error`) and leaves that contig's count untouched;
contigs whose count reaches zero are dropped.  The iteration order of the
Python `set`-keyed dict is unspecified; the weighted mean does not depend
on it, and we iterate contig ids in last-occurrence-deduplicated order. -/
def getCovMean (ctx : Ctx) (p : VPath) (excl : Option VPath) : Except Err ℚ :=
  checkPath ctx p >>= fun _ =>
    match excl with
    | none =>
        npAverage
          (((p.map Prod.fst).dedup).map (fun v => ctx.cov v / (nameCount p v : ℚ)))
          (((p.map Prod.fst).dedup).map (fun v => ((ctx.vlen v * nameCount p v : ℕ) : ℚ)))
    | some ex =>
        npAverage
          ((((p.map Prod.fst).dedup).filter (fun v => exclCnt p ex v ≠ 0)).map
            (fun v => ctx.cov v / (exclCnt p ex v : ℚ)))
          ((((p.map Prod.fst).dedup).filter (fun v => exclCnt p ex v ≠ 0)).map
            (fun v => ((ctx.vlen v * exclCnt p ex v : ℕ) : ℚ)))

/-- `scipy.stats.norm.logpdf(x, loc, scale)` evaluated in exact arithmetic:
`−log(scale·√(2π)) − (x−loc)²/(2·scale²)`.  The additive constant
`−log(scale·√(2π))` is irrational; it is the same in every call of
`__cal_multiplicity_like` (all calls share `loc`/`scale`) and cancels in
the differences the code takes, so it is carried as the opaque rational
parameter `c`.  `σsq` is the square of `scale`. -/
def normLogpdf (c x loc σsq : ℚ) : ℚ := c - (x - loc) ^ 2 / (2 * σsq)

/-- One iteration of the loop of `__cal_multiplicity_like` updating the
running length-weighted log-likelihood ratio.  When the proposed contig
does not occur in the current path (`current_c == 0`), the code takes
`old_like = -inf` and `new_like = 0.`, so the increment is `+inf` and
`min(0, ...)` yields exactly `0` (also when the contig length is `0`,
since Python's `min(0., nan)` is `0.`); otherwise the increment is the
difference of the two log-densities (the normalization constant cancels)
times the contig length, clamped above at zero. -/
def calMulStep (ctx : Ctx) (cnt : ℕ → ℕ) (loc σsq c : ℚ) (acc : ℚ) (v : OV) : ℚ :=
  if cnt v.1 = 0 then 0
  else min 0 (acc +
    (normLogpdf c (ctx.cov v.1 / ((cnt v.1 : ℚ) + 1)) loc σsq -
     normLogpdf c (ctx.cov v.1 / (cnt v.1 : ℚ)) loc σsq) * (ctx.vlen v.1 : ℚ))

/-- The loop of `__cal_multiplicity_like` over the proposed extension,
producing the raw (length-weighted, zero-clamped) cumulative log-ratio
list.  Each iteration also evaluates
`__get_cov_mean(path + [(v_name, v_end)], return_std=True)` (the value is
assigned but never used by the result; only its possible exceptions are
relevant, and `return_std=True` raises in exactly the same cases as the
plain mean), and appends the contig to the path.  The `_old_like_cache`
of the source is semantically transparent (the cached value depends only
on the contig id and the fixed `current_v_counts`) and is not modelled. -/
def calMulLoop (ctx : Ctx) (cnt : ℕ → ℕ) (loc σsq c : ℚ) :
    VPath → List OV → ℚ → Except Err (List ℚ)
  | _, [], _ => .ok []
  | path, v :: rest, acc => do
      let _ ← getCovMean ctx (path ++ [v]) none
      let acc' := calMulStep ctx cnt loc σsq c acc v
      let rest' ← calMulLoop ctx cnt loc σsq c (path ++ [v]) rest acc'
      .ok (acc' :: rest')

/-- The list `accumulated_v_lengths` of `__cal_multiplicity_like`: the
cumulative prefix sums of the extension's contig lengths
(`[sum(v_lengths[:1]), ..., sum(v_lengths[:n])]`). -/
def cumSums (l : List ℚ) : List ℚ :=
  (List.range l.length).map (fun i => (l.take (i + 1)).sum)

/-- `__cal_multiplicity_like(path, proposed_extension, current_v_counts,
..., logarithm=True)`: the cumulative length-weighted zero-clamped
log-likelihood-ratio list, each entry de-weighted by the cumulative contig
length of its prefix.  `current_v_counts` is passed by both call sites
(lines 668 and 787 of the source); when omitted the source computes
`cnt = fun v => nameCount path v` itself, an instance of this definition.
`loc`/`σsq` are the precomputed `single_cov_mean` and squared
`single_cov_std`, also passed by both call sites.  A zero cumulative
prefix length raises `ZeroDivisionError` in the final de-weighting
division.  With `logarithm=False` the source exponentiates the returned
array entrywise; the claims are stated on the log-form list. -/
def calMultiplicityLike (ctx : Ctx) (path ext : VPath) (cnt : ℕ → ℕ)
    (loc σsq c : ℚ) : Except Err (List ℚ) := do
  let raws ← calMulLoop ctx cnt loc σsq c path ext 0
  if (cumSums (ext.map (fun v => ((ctx.vlen v.1 : ℕ) : ℚ)))).any (fun x => x = 0) then
    .error .zeroDiv
  else
    .ok ((raws.zip (cumSums (ext.map (fun v => ((ctx.vlen v.1 : ℕ) : ℚ))))).map
      (fun rc => rc.1 / rc.2))

/-- The walk of the stochastic stopping rule of
`__heuristic_check_multiplicity`, from the longest prefix (`rev_go = 0`)
down: at each step the incremental draw probability is
`(like_ratio - previous_like) / (1 - previous_like)` and the prefix of
length `n - rev_go` is accepted when the draw probability strictly exceeds
the uniform draw `rand rev_go ∈ [0, 1)`.  `none` means no prefix was
accepted (the source then returns the current path or reverses it). -/
def stopGo (n : ℕ) (rand : ℕ → ℚ) : List ℚ → ℚ → ℕ → Option ℕ
  | [], _, _ => none
  | l :: rest, prev, revGo =>
      if (l - prev) / (1 - prev) > rand revGo then some (n - revGo)
      else stopGo n rand rest l (revGo + 1)

/-- The stochastic stopping rule of `__heuristic_check_multiplicity` on a
given likelihood-ratio list (`like_ratio_list`, the exponentiated output
of `__cal_multiplicity_like`, one entry per prefix of the proposed
extension in increasing prefix length): walk the list in reverse with
`previous_like` starting at `0.` and return the accepted prefix length. -/
def heuristicStopAccept (likes : List ℚ) (rand : ℕ → ℚ) : Option ℕ :=
  stopGo likes.length rand likes.reverse 0 0

/-- The search state fields of `PathGenerator` relevant to invoking the
Path Extension Engine: the deduplicated read paths, their observation
counts (`__read_paths_counter`), the index-built flag
(`__read_paths_counter_indexed`) and the recorded maximum alignment
length.  `initGenState` below is their state right after `__init__`. -/
structure GenState where
  readPaths : List VPath
  readPathsCounter : VPath → ℕ
  indexed : Bool
  localMaxAlignmentLen : Option ℕ

/-- The state of the fields of `GenState` established by
`PathGenerator.__init__`: no read paths, an empty counter, index not
built, no recorded alignment length. -/
def initGenState : GenState :=
  { readPaths := []
    readPathsCounter := fun _ => 0
    indexed := false
    localMaxAlignmentLen := none }

/-- Walk of `random.choices`' cumulative-weight bisection: pick the first
item whose cumulative weight strictly exceeds the target. -/
def pickCum : List α → List ℚ → ℚ → Option α
  | [], _, _ => none
  | x :: _, [], _ => some x
  | [x], _, _ => some x
  | x :: xs, w :: ws, t => if t < w then some x else pickCum xs ws (t - w)

/-- `random.choices(population, weights=weights)[0]` with a uniform draw
`r ∈ [0, 1)`: raises on an empty population (`IndexError` from the empty
cumulative-weight list) and on a non-positive weight total
(`ValueError`). -/
def randomChoicesW (items : List α) (ws : List ℚ) (r : ℚ) : Except Err α :=
  match items with
  | [] => .error .emptyChoices
  | x :: xs =>
      if ws.sum ≤ 0 then .error .zeroWeights
      else .ok ((pickCum (x :: xs) ws (r * ws.sum)).getD x)

/-- Modelled from the spec: `graph.reverse_path` of the external
assembly-graph collaborator — reverse the order of the oriented contigs
and flip each orientation flag. -/
def reversePath (p : VPath) : VPath := (p.map (fun v => (v.1, !v.2))).reverse

/-- The seeding step of `__heuristic_extend_path` on an empty path
(source lines 585–597): weight each read path by the reciprocal of its
observation count, draw one with `random.choices`, and reverse it when a
second uniform draw exceeds `0.5`.  The subsequent recursive extension of
the seeded path is not modelled; the claims about invoking the engine
before the subpath index is built are decided by this step, which fails
inside `random.choices` when no read paths have been indexed. -/
def heuristicExtendSeed (st : GenState) (r1 r2 : ℚ) : Except Err VPath := do
  let ws := st.readPaths.map (fun rp => 1 / (st.readPathsCounter rp : ℚ))
  let rp ← randomChoicesW st.readPaths ws r1
  .ok (if r2 > 1/2 then reversePath rp else rp)

/-- The configuration recorded by `PathGenerator.__init__` once its
`assert` statements pass. -/
structure PGConfig where
  numSearch : ℤ
  numProcesses : ℤ
  forceCircular : Bool
  heteroChromosome : Bool
  differF : ℚ
  decayF : ℚ
  decayT : ℤ
  covInert : ℚ
  useAlignmentCov : Bool
  minUnitSimilarity : ℚ

/-- `PathGenerator.__init__`: the six `assert` statements
(`1 <= num_processes`, `0 <= differ_f`, `0 <= decay_f`, `100 <= decay_t`,
`0 <= cov_inert`, `0.5 <= min_unit_similarity`), in source order;
`num_search` is stored without any validation.  `none` models a failed
`assert` (AssertionError). -/
def mkPathGenerator (numSearch numProcesses : ℤ) (forceCircular heteroChromosome : Bool)
    (differF decayF : ℚ) (decayT : ℤ) (covInert : ℚ) (useAlignmentCov : Bool)
    (minUnitSimilarity : ℚ) : Option PGConfig :=
  if 1 ≤ numProcesses then
    if 0 ≤ differF then
      if 0 ≤ decayF then
        if 100 ≤ decayT then
          if 0 ≤ covInert then
            if 1/2 ≤ minUnitSimilarity then
              some ⟨numSearch, numProcesses, forceCircular, heteroChromosome,
                    differF, decayF, decayT, covInert, useAlignmentCov,
                    minUnitSimilarity⟩
            else none
          else none
        else none
      else none
    else none
  else none

/-- Key lookup in an association list of copy-number classes
(`copy_to_vne[copy_num]`). -/
def lookupList (assoc : List (ℕ × List OV)) (k : ℕ) : List OV :=
  ((assoc.find? (fun kv => kv.1 = k)).map Prod.snd).getD []

/-- Append `v` to the class of key `k`, creating the class at the end when
the key is new — the insertion behaviour of the Python `OrderedDict`
building `copy_to_vne`. -/
def upsertClass : List (ℕ × List OV) → ℕ → OV → List (ℕ × List OV)
  | [], k, v => [(k, [v])]
  | (k', l) :: rest, k, v =>
      if k' = k then (k', l ++ [v]) :: rest else (k', l) :: upsertClass rest k v

/-- `copy_to_vne`: oriented contigs grouped by their occurrence count in
the path, keys in first-encounter order over `unique_vne_list`. -/
def buildCopyToVne (uniqueVne : List OV) (cnt : OV → ℕ) : List (ℕ × List OV) :=
  uniqueVne.foldl (fun acc v => upsertClass acc (cnt v) v) []

/-- The ascending occurrence positions of `s` in `p`
(`[s_id for s_id, s_ne in enumerate(circular_path) if s_ne == s]`):
the positions of `p` holding `s`, in increasing order. -/
def occIdx (s : OV) (p : VPath) : List ℕ :=
  (List.range p.length).filter (fun j => p[j]? = some s)

/-- Step 3.1.1 of `__decompose_hetero_units`: whether the occurrences of
the last-sorted anchor each immediately precede (cyclically) an occurrence
of the first-sorted anchor
(`zip(sne[0][2:] + sne[0][1:2], sne[-1][1:])` with
`(end_id + 1) % len_total == first_id` throughout). -/
def consecutiveEnds (len : ℕ) (first last : List ℕ) : Bool :=
  ((first.rotate 1).zip last).all (fun fe => (fe.2 + 1) % len = fe.1)

/-- Step 3.1.2 of `__decompose_hetero_units`: drop an anchor whose
occurrence indices are all the kept anchor's indices shifted by the
current step (mod path length) — such anchors generate the same circular
units; on a mismatch the checked anchor becomes the new kept anchor. -/
def sneDedupGo (len : ℕ) : (OV × List ℕ) → ℕ → List (OV × List ℕ) → List (OV × List ℕ)
  | keep, _, [] => [keep]
  | keep, step, c :: rest =>
      if (keep.2.zip c.2).all (fun kc => (kc.1 + step) % len = kc.2)
      then sneDedupGo len keep (step + 1) rest
      else keep :: sneDedupGo len c 1 rest

/-- The deduplication loop of step 3.1.2 over the sorted anchor list. -/
def sneDedup (len : ℕ) : List (OV × List ℕ) → List (OV × List ℕ)
  | [] => []
  | h :: t => sneDedupGo len h 1 t

/-- Step 3.2: split the circular path at the given anchor occurrence
positions (`circular_path[from_id:to_id]` for consecutive positions, plus
the wrap-around unit `circular_path[s_indices[-1]:] +
circular_path[:s_indices[0]]`). -/
def unitsOf (p : VPath) : List ℕ → List VPath
  | [] => []
  | i :: is =>
      ((i :: is).zip is).map (fun ft => (p.drop ft.1).take (ft.2 - ft.1)) ++
      [p.drop (is.getLastD i) ++ p.take i]

/-- Modelled from the spec:
`graph.get_standardized_path_circ(graph.roll_path(unit))` of the external
assembly-graph collaborator — the canonical representative of a circular
path, invariant under rotation ("the path can be rotated/rolled without
changing identity"): the lexicographically smallest rotation. -/
def canonRot (p : VPath) : VPath :=
  ((List.range p.length).map (fun k => p.rotate k)).foldl
    (fun acc q => if vpathLt q acc then q else acc) p

/-- `variant_counts.min(axis=0)`: the column-wise minimum over the
per-unit count rows. -/
def colMin : List (List ℕ) → List ℕ
  | [] => []
  | r :: rs => rs.foldl (fun acc row => (acc.zip row).map (fun ab => min ab.1 ab.2)) r

/-- Add a decomposition scheme to the accumulated set of qualified schemes
unless already present (`if this_scheme not in qualified_schemes`). -/
def addScheme (acc : List (List VPath)) (sch : List VPath) : List (List VPath) :=
  if acc.contains sch then acc else acc ++ [sch]

/-- `candidate_starts` of step 3.1: the single-copy candidate anchors of
the multiplicity class when any, else the whole class. -/
def candidateStartsOf (copyToVne : List (ℕ × List OV)) (candidateSc : List ℕ)
    (numUnits : ℕ) : List OV :=
  if ((lookupList copyToVne numUnits).filter
      (fun v => candidateSc.contains v.1)).isEmpty then
    lookupList copyToVne numUnits
  else
    (lookupList copyToVne numUnits).filter (fun v => candidateSc.contains v.1)

/-- The sorted anchor list with its occurrence indices (`sne_indices` after
the sort of step 3.1). -/
def sneSortedOf (p : VPath) (candidateStarts : List OV) : List (OV × List ℕ) :=
  sortBy (fun a b => natListLt a.2 b.2) (candidateStarts.map (fun s => (s, occIdx s p)))

/-- The step-3.1.1 condition over the sorted anchor list: the last-sorted
anchor's occurrences each cyclically precede the first-sorted anchor's. -/
def consecEndsOf (len : ℕ) (sorted : List (OV × List ℕ)) : Bool :=
  match sorted, sorted.getLast? with
  | f :: _, some lst => consecutiveEnds len f.2 lst.2
  | _, _ => true

/-- `sne_indices` after steps 3.1.1–3.1.2: deduplicate anchors reproducing
a kept anchor's split, and drop the first anchor when the last one is its
cyclic predecessor. -/
def sneFinalOf (p : VPath) (candidateStarts : List OV) : List (OV × List ℕ) :=
  if consecEndsOf p.length (sneSortedOf p candidateStarts) &&
      decide (1 < (sneDedup p.length (sneSortedOf p candidateStarts)).length) then
    (sneDedup p.length (sneSortedOf p candidateStarts)).tail
  else
    sneDedup p.length (sneSortedOf p candidateStarts)

/-- `shared_len` of step 3.2: the contig-length-weighted share of the
unit-wise minimum occurrence counts, scaled by the unit number. -/
def sharedLenOf (uniqueVne : List OV) (vLengths : List ℕ) (totalBaseLen : ℚ)
    (numUnits : ℕ) (units : List VPath) : ℚ :=
  (numUnits : ℚ) *
    (((colMin (units.map (fun u => uniqueVne.map (fun v => u.count v)))).zip
        vLengths).map (fun ab => ((ab.1 * ab.2 : ℕ) : ℚ))).sum /
    totalBaseLen

/-- `this_scheme`: the sorted canonicalized units of one split. -/
def schemeOfUnits (units : List VPath) : List VPath :=
  sortBy vpathLt (units.map canonRot)

/-- Steps 3.1–3.2 of `__decompose_hetero_units` for one candidate number
of units: for each anchor surviving the deduplication, split the path at
the anchor's occurrences and record the scheme when the shared-length
ratio strictly exceeds the minimum unit similarity. -/
def schemesForNumUnits (ctx : Ctx) (p : VPath) (uniqueVne : List OV)
    (vLengths : List ℕ) (totalBaseLen : ℚ) (copyToVne : List (ℕ × List OV))
    (candidateSc : List ℕ) (numUnits : ℕ) (acc : List (List VPath)) :
    List (List VPath) :=
  (sneFinalOf p (candidateStartsOf copyToVne candidateSc numUnits)).foldl
    (fun acc2 sidxs =>
      if sharedLenOf uniqueVne vLengths totalBaseLen numUnits (unitsOf p sidxs.2) >
          ctx.minUnitSimilarity then
        addScheme acc2 (schemeOfUnits (unitsOf p sidxs.2))
      else acc2) acc

/-- `unique_vne_list = sorted(set(circular_path))`. -/
def uniqueVneOf (p : VPath) : List OV := sortBy ovLt (dedupFirst p)

/-- `copy_to_vne` of `__decompose_hetero_units`. -/
def copyToVneOf (p : VPath) : List (ℕ × List OV) :=
  buildCopyToVne (uniqueVneOf p) (fun v => p.count v)

/-- The keys of the `v_lengths` `OrderedDict`: the distinct contig ids of
`unique_vne_list` in first-occurrence order. -/
def vNamesOf (p : VPath) : List ℕ := dedupFirst ((uniqueVneOf p).map Prod.fst)

/-- `candidate_sc_vertices`: the contig ids occurring in the path that are
candidate single-copy vertices. -/
def candidateScOf (ctx : Ctx) (p : VPath) : List ℕ :=
  (vNamesOf p).filter (fun v => ctx.sc.contains v)

/-- `copies = sorted(copy_to_vne)`: the occurring multiplicities in
ascending order. -/
def copiesOf (p : VPath) : List ℕ :=
  sortBy (fun a b => a < b) ((copyToVneOf p).map Prod.fst)

/-- `sum_lens`: per multiplicity class, the total length of its contigs,
restricted to single-copy candidates when any occur in the path. -/
def sumLensOf (ctx : Ctx) (p : VPath) : List ℕ :=
  (copiesOf p).map (fun cnum =>
    (((lookupList (copyToVneOf p) cnum).filter
        (fun v => (candidateScOf ctx p).isEmpty || ctx.sc.contains v.1)).map
      (fun v => ctx.vlen v.1)).sum)

/-- The unnormalized weights `[c * l for c, l in zip(copies, sum_lens)]`. -/
def weightsRawOf (ctx : Ctx) (p : VPath) : List ℚ :=
  ((copiesOf p).zip (sumLensOf ctx p)).map (fun cl => ((cl.1 * cl.2 : ℕ) : ℚ))

/-- `candidate_num_units`: the multiplicities `m > 1` whose accumulated
normalized weight over the classes (from `m`'s own position on) with
multiplicity divisible by `m` reaches the minimum unit similarity. -/
def candidateNumUnitsOf (ctx : Ctx) (p : VPath) : List ℕ :=
  let sumW := (weightsRawOf ctx p).sum
  let cw := (copiesOf p).zip ((weightsRawOf ctx p).map (fun w => w / sumW))
  cw.enum.filterMap (fun icw =>
    if 1 < icw.2.1 ∧ ctx.minUnitSimilarity ≤
        (((cw.drop icw.1).filter (fun c2 => c2.1 % icw.2.1 = 0)).map Prod.snd).sum
    then some icw.2.1 else none)

/-- `total_base_len`: the length-weighted total multiplicity of the path's
contigs (ignoring overlaps, as the source does). -/
def totalBaseLenOf (ctx : Ctx) (p : VPath) : ℚ :=
  (((uniqueVneOf p).map (fun v => ctx.vlen v.1 * p.count v)).sum : ℕ)

/-- `qualified_schemes` accumulated over all candidate unit numbers.
A Python `set`, embedded as a first-discovery-ordered deduplicated list
(which fixes the otherwise unspecified set iteration order). -/
def qualifiedSchemesOf (ctx : Ctx) (p : VPath) : List (List VPath) :=
  (candidateNumUnitsOf ctx p).foldl
    (fun acc nu => schemesForNumUnits ctx p (uniqueVneOf p)
      ((uniqueVneOf p).map (fun v => ctx.vlen v.1)) (totalBaseLenOf ctx p)
      (copyToVneOf p) (candidateScOf ctx p) nu acc) []

/-- `these_sub_paths`: the pooled sub-paths of the units of a scheme. -/
def schemeSubs (subPaths : VPath → List VPath) (sch : List VPath) : List VPath :=
  sch.foldl (fun a u => a ++ subPaths u) []

/-- Step 3.3: keep only the schemes whose pooled unit sub-paths cover every
sub-path of the original path, and concatenate their units. -/
def circularUnitsOf (ctx : Ctx) (subPaths : VPath → List VPath) (p : VPath) :
    List VPath :=
  (qualifiedSchemesOf ctx p).foldl (fun acc sch =>
    if (subPaths p).all (fun s => (schemeSubs subPaths sch).contains s) then acc ++ sch
    else acc) []

/-- `__decompose_hetero_units(circular_path)`, with the sub-path
enumeration of the external proportion estimator
(`self.tvs.get_variant_sub_paths`) supplied as the parameter `subPaths`
(modelled from the spec only as "the set of sub-paths extractable from" a
variant; the claims either quantify over it or instantiate it).  Paths of
length below four are returned unchanged; when no candidate unit number
exists the path is returned unchanged (the weight normalization inside
`candidateNumUnitsOf` raises `ZeroDivisionError` on a zero weight total,
checked here before the candidate test as in the source).  The numpy
arrays `v_lengths` (one entry per distinct contig id) and `v_copies` (one
entry per distinct oriented contig) are multiplied elementwise, which
raises a broadcast `ValueError` whenever some contig id occurs in both
orientations (`shapeMismatch`); a zero total base length raises
`ZeroDivisionError` at the first share computation, which is always
reached.  Otherwise the units of the qualifying schemes surviving the
sub-path coverage check are returned — or the unchanged path when none
survive. -/
def decomposeHeteroUnits (ctx : Ctx) (subPaths : VPath → List VPath) (p : VPath) :
    Except Err (List VPath) :=
  if p.length < 4 then .ok [p]
  else if (weightsRawOf ctx p).sum = 0 then .error .zeroWeights
  else if candidateNumUnitsOf ctx p = [] then .ok [p]
  else if (vNamesOf p).length ≠ (uniqueVneOf p).length then .error .shapeMismatch
  else if totalBaseLenOf ctx p = 0 then .error .zeroDiv
  else if circularUnitsOf ctx subPaths p = [] then .ok [p]
  else .ok (circularUnitsOf ctx subPaths p)

/-- A step of a path from `a` to `b` is realizable in the graph when
`(b.1, !b.2)` is among the connections of end `a.2` of contig `a.1`,
matching how the extension engine appends `(next_name, not next_end)` for
a connection `(next_name, next_end)`. -/
def edgeB (ctx : Ctx) (a b : OV) : Bool := (ctx.conn a.1 a.2).contains (b.1, !b.2)

/-- All consecutive pairs of the path are related. -/
def chainB (r : OV → OV → Bool) : VPath → Bool
  | [] => true
  | [_] => true
  | a :: b :: rest => r a b && chainB r (b :: rest)

/-- The wrap-around step from the last element of the path back to its
first element is realizable. -/
def wrapB (ctx : Ctx) (p : VPath) : Bool :=
  match p.getLast?, p.head? with
  | some a, some b => edgeB ctx a b
  | _, _ => false

/-- Modelled from the spec: `graph.is_circular_path` — the path is
non-empty and every consecutive step, including the wrap-around from the
last element to the first, is realizable in the graph. -/
def isCircularPath (ctx : Ctx) (p : VPath) : Bool :=
  !p.isEmpty && chainB (edgeB ctx) p && wrapB ctx p

/-- Modelled from the spec: `graph.is_fully_covered_by` — every contig of
the graph occurs in the path. -/
def isFullyCoveredBy (ctx : Ctx) (p : VPath) : Bool :=
  ctx.verts.all (fun v => (p.map Prod.fst).contains v)

/-- The mutable search state of `__gen_heuristic_paths_uni`: the two
counters, the insertion-ordered variant list `self.variants` and the
occurrence counts `self.variants_counts` (an association list in first
insertion order). -/
structure UniState where
  countSearch : ℕ
  countValid : ℕ
  variants : List VPath
  variantsCounts : List (VPath × ℕ)
  deriving DecidableEq, Repr

/-- The state at the start of `__gen_heuristic_paths_uni`. -/
def initUniState : UniState := ⟨0, 0, [], []⟩

/-- Increment the count of the entry of key `q` in the association list
(`self.variants_counts[new_path] += 1`). -/
def bumpCount (q : VPath) : List (VPath × ℕ) → List (VPath × ℕ)
  | [] => []
  | kv :: rest => if kv.1 = q then (kv.1, kv.2 + 1) :: rest else kv :: bumpCount q rest

/-- One insertion into the variant catalog: increment `count_valid`, then
either increment an existing entry's count or append a new entry. -/
def bumpVariant (q : VPath) (st : UniState) : UniState :=
  if (st.variantsCounts.find? (fun kv => kv.1 = q)).isSome then
    { st with
      countValid := st.countValid + 1
      variantsCounts := bumpCount q st.variantsCounts }
  else
    { st with
      countValid := st.countValid + 1
      variants := st.variants ++ [q]
      variantsCounts := st.variantsCounts ++ [(q, 1)] }

/-- The per-unit insertion loop of `__gen_heuristic_paths_uni` (source
lines 257–269): insert each produced path in turn and break exactly when
`count_valid == num_search`. -/
def insertLoop (numSearch : ℕ) : List VPath → UniState → UniState
  | [], st => st
  | q :: rest, st =>
      let st' := bumpVariant q st
      if st'.countValid = numSearch then st' else insertLoop numSearch rest st'

/-- One iteration of the `while` loop of `__gen_heuristic_paths_uni` on a
given traversal result: increment `count_search`, skip results that
violate the structural constraints (circularity under `force_circular`,
full graph coverage when heterogeneous chromosomes are disallowed),
decompose circular results into hetero units, and insert the resulting
paths. -/
def uniStep (ctx : Ctx) (subPaths : VPath → List VPath) (numSearch : ℕ)
    (newPath : VPath) (st : UniState) : Except Err UniState :=
  if (ctx.forceCircular && !(isCircularPath ctx newPath)) ||
     (!ctx.heteroChromosome && !(isFullyCoveredBy ctx newPath)) then
    .ok { st with countSearch := st.countSearch + 1 }
  else
    (if isCircularPath ctx newPath then decomposeHeteroUnits ctx subPaths newPath
     else .ok [newPath]) >>= fun newPathList =>
      .ok (insertLoop numSearch newPathList { st with countSearch := st.countSearch + 1 })

/-- `__gen_heuristic_paths_uni`: the `while count_valid < num_search` loop.
The randomized traversal results (`get_single_traversal`) are supplied as
the stream `trav`, indexed by the number of searches already performed;
the loop may not terminate in Python, so an explicit fuel bounds the
number of iterations here and `.ok none` means the fuel ran out with the
loop still running. -/
def genUniLoop (ctx : Ctx) (subPaths : VPath → List VPath) (numSearch : ℕ)
    (trav : ℕ → VPath) : ℕ → UniState → Except Err (Option UniState)
  | 0, st => if st.countValid < numSearch then .ok none else .ok (some st)
  | fuel + 1, st =>
      if st.countValid < numSearch then do
        let st' ← uniStep ctx subPaths numSearch (trav st.countSearch) st
        genUniLoop ctx subPaths numSearch trav fuel st'
      else .ok (some st)

/-- The total number of recorded observations in the variant catalog. -/
def sumCounts (st : UniState) : ℕ := (st.variantsCounts.map Prod.snd).sum

/-- Witness context for the evaluator theorems: two contigs of lengths 1
and 5 with coverages 1 and 7. -/
def ctxA : Ctx :=
  { verts := [1, 2]
    vlen := fun n => if n = 1 then 1 else 5
    cov := fun n => if n = 1 then 1 else 7
    conn := fun _ _ => []
    sc := []
    minUnitSimilarity := 17/20
    forceCircular := true
    heteroChromosome := true }

/-- Witness context for the coverage-model theorems: a single contig of
length 100 and coverage 10. -/
def ctxB : Ctx :=
  { verts := [1]
    vlen := fun _ => 100
    cov := fun _ => 10
    conn := fun _ _ => []
    sc := []
    minUnitSimilarity := 17/20
    forceCircular := true
    heteroChromosome := true }

/-- Witness context for the coordinator theorems: one non-circular contig,
no structural constraints. -/
def ctxG : Ctx :=
  { verts := [1]
    vlen := fun _ => 1
    cov := fun _ => 1
    conn := fun _ _ => []
    sc := []
    minUnitSimilarity := 17/20
    forceCircular := false
    heteroChromosome := true }

/-- The final state of a concrete three-search run. -/
def c10Final : UniState := ⟨3, 3, [[(1, true)]], [([(1, true)], 3)]⟩

/-- A five-contig circular graph with two parallel middle contigs: edges
1→2, 1→3, 2→4, 3→4, 4→5 and 5→1 (contigs 2 and 3 short, the rest long),
heterogeneous chromosomes disallowed. -/
def ctxD : Ctx :=
  { verts := [1, 2, 3, 4, 5]
    vlen := fun n => if n = 2 then 10 else if n = 3 then 10 else 100
    cov := fun _ => 1
    conn := fun n e =>
      if e then
        if n = 1 then [(2, false), (3, false)]
        else if n = 2 then [(4, false)]
        else if n = 3 then [(4, false)]
        else if n = 4 then [(5, false)]
        else if n = 5 then [(1, false)]
        else []
      else []
    sc := []
    minUnitSimilarity := 17/20
    forceCircular := true
    heteroChromosome := false }

/-- The double traversal of the graph of `ctxD`, once through contig 2 and
once through contig 3: a circular, fully covering traversal result whose
hetero-unit decomposition yields the two single-loop units. -/
def pD : VPath :=
  [(1, true), (2, true), (4, true), (5, true), (1, true), (3, true), (4, true), (5, true)]

/-- The state after one coordinator step of `ctxD` on `pD` with target 2:
both decomposition units entered the catalog. -/
def uD : UniState :=
  ⟨1, 2,
    [[(1, true), (2, true), (4, true), (5, true)],
      [(1, true), (3, true), (4, true), (5, true)]],
    [([(1, true), (2, true), (4, true), (5, true)], 1),
      ([(1, true), (3, true), (4, true), (5, true)], 1)]⟩

/-- The circular path formed by concatenating `m` identical copies of the
unit `u` (the synthetic repeat input of the decomposer round-trip). -/
def repeatPath (m : ℕ) (u : VPath) : VPath := (List.replicate m u).join

/-- Witness context for the decomposer theorems: contigs of length 10, no
single-copy candidates, minimum unit similarity 17/20. -/
def ctxC6 : Ctx :=
  { verts := [1, 2]
    vlen := fun _ => 10
    cov := fun _ => 1
    conn := fun _ _ => []
    sc := []
    minUnitSimilarity := 17/20
    forceCircular := true
    heteroChromosome := true }

/-- C9: construction validates exactly the six asserted bounds — and this
for every value of the stored-but-unvalidated target search count: it
succeeds iff the worker count is ≥ 1, the differ exponent ≥ 0, the decay
factor ≥ 0, the decay threshold ≥ 100, the coverage-inertia exponent ≥ 0
and the minimum-unit-similarity fraction ≥ 1/2, and fails otherwise. -/
theorem mkPathGenerator_isSome_iff (numSearch numProcesses : ℤ)
    (forceCircular heteroChromosome : Bool) (differF decayF : ℚ) (decayT : ℤ)
    (covInert : ℚ) (useAlignmentCov : Bool) (minUnitSimilarity : ℚ) :
    (mkPathGenerator numSearch numProcesses forceCircular heteroChromosome differF
      decayF decayT covInert useAlignmentCov minUnitSimilarity).isSome ↔
    (1 ≤ numProcesses ∧ 0 ≤ differF ∧ 0 ≤ decayF ∧ 100 ≤ decayT ∧ 0 ≤ covInert ∧
      1/2 ≤ minUnitSimilarity) := by
  unfold mkPathGenerator
  split_ifs <;> simp_all

/-- C3: on a likelihood-ratio list of all ones (the exponentiated form of
an all-zero log-likelihood-ratio sequence), the stochastic stopping rule
accepts the longest proposed length at the very first draw, whatever the
uniform draws in `[0, 1)` are. -/
theorem heuristicStopAccept_all_ones_longest (n : ℕ) (rand : ℕ → ℚ)
    (hn : 1 ≤ n) (hr : ∀ i, rand i < 1) :
    heuristicStopAccept (List.replicate n 1) rand = some n := by
  cases n with
  | zero => omega
  | succ m =>
      have h0 : ((1 : ℚ) - 0) / (1 - 0) > rand 0 := by
        simpa using hr 0
      unfold heuristicStopAccept
      rw [List.reverse_replicate, List.length_replicate, List.replicate_succ, stopGo,
        if_pos h0, Nat.sub_zero]

/-- Witness for `heuristicStopAccept_all_ones_longest` at a concrete
two-entry all-ones list with constant draw 1/2. -/
theorem heuristicStopAccept_all_ones_longest_witness :
    heuristicStopAccept (List.replicate 2 1) (fun _ => 1/2) = some 2 :=
  heuristicStopAccept_all_ones_longest 2 (fun _ => 1/2) (by norm_num)
    (fun _ => by norm_num)

/-- C4 counterexample: invoking the extension engine on the freshly
constructed state (subpath index not built, hence no indexed read paths)
fails inside `random.choices` on the empty read-path population — an
`IndexError`, not the explicit precondition check/error the claim
describes (the only precondition-style error the engine raises is
`__check_path`'s contig-absent error, `Err.vertexNotInGraph`, and the
index-built flag is never checked by the engine itself). -/
theorem heuristicExtendSeed_unindexed_error_kind :
    heuristicExtendSeed initGenState 0 0 = Except.error Err.emptyChoices ∧
      Err.emptyChoices ≠ Err.vertexNotInGraph := by
  exact ⟨rfl, by decide⟩

/-- C4 amended: every engine invocation on a state whose read paths have
not been indexed does fail — with the empty-population sampling error. -/
theorem heuristicExtendSeed_unindexed_fails (st : GenState) (r1 r2 : ℚ)
    (h : st.readPaths = []) :
    heuristicExtendSeed st r1 r2 = Except.error Err.emptyChoices := by
  simp only [heuristicExtendSeed, randomChoicesW, h]
  rfl

/-- Witness for `heuristicExtendSeed_unindexed_fails` at the initial
state. -/
theorem heuristicExtendSeed_unindexed_fails_witness :
    heuristicExtendSeed initGenState 0 0 = Except.error Err.emptyChoices :=
  heuristicExtendSeed_unindexed_fails initGenState 0 0 rfl

/-- Success of a bound `Except` computation factors through success of its
first stage. -/
theorem exceptBind_ok {α β : Type} {x : Except Err α} {f : α → Except Err β} {b : β} :
    (x >>= f) = Except.ok b ↔ ∃ a, x = Except.ok a ∧ f a = Except.ok b := by
  cases x with
  | error e => simp [Bind.bind, Except.bind]
  | ok a => simp [Bind.bind, Except.bind]

/-- Each entry appended by the loop of `__cal_multiplicity_like` is capped
at zero. -/
theorem calMulStep_nonpos (ctx : Ctx) (cnt : ℕ → ℕ) (loc σsq c acc : ℚ) (v : OV) :
    calMulStep ctx cnt loc σsq c acc v ≤ 0 := by
  unfold calMulStep
  split
  · exact le_refl 0
  · exact min_le_left _ _

/-- All raw cumulative entries produced by the loop of
`__cal_multiplicity_like` are nonpositive. -/
theorem calMulLoop_ok_nonpos (ctx : Ctx) (cnt : ℕ → ℕ) (loc σsq c : ℚ) :
    ∀ (ext : List OV) (path : VPath) (acc : ℚ) (l : List ℚ),
      calMulLoop ctx cnt loc σsq c path ext acc = .ok l → ∀ r ∈ l, r ≤ 0 := by
  intro ext
  induction ext with
  | nil =>
      intro path acc l h r hr
      simp only [calMulLoop] at h
      cases h
      simp at hr
  | cons v rest ih =>
      intro path acc l h r hr
      rw [calMulLoop] at h
      obtain ⟨u, hu, h2⟩ := exceptBind_ok.mp h
      obtain ⟨l2, hl2, h3⟩ := exceptBind_ok.mp h2
      cases h3
      rcases List.mem_cons.mp hr with h1 | h1
      · subst h1; exact calMulStep_nonpos ctx cnt loc σsq c acc v
      · exact ih (path ++ [v]) (calMulStep ctx cnt loc σsq c acc v) l2 hl2 r h1

/-- Entries of the cumulative prefix sums of a nonnegative list are
nonnegative. -/
theorem cumSums_mem_nonneg (l : List ℚ) (hl : ∀ x ∈ l, 0 ≤ x) :
    ∀ s ∈ cumSums l, 0 ≤ s := by
  intro s hs
  simp only [cumSums, List.mem_map, List.mem_range] at hs
  obtain ⟨i, _, rfl⟩ := hs
  exact List.sum_nonneg (fun x hx => hl x (List.mem_of_mem_take hx))

/-- C1 amended: every entry of the sequence returned by the Multiplicity
Likelihood Evaluator is ≤ 0 in log form (equivalently ≤ 1 after
exponentiation) — for every current path, proposed extension, count map
and precomputed single-copy mean/variance.  (The sequence need not be
monotonically non-increasing; see the counterexample.) -/
theorem calMultiplicityLike_entries_nonpos (ctx : Ctx) (path ext : VPath)
    (cnt : ℕ → ℕ) (loc σsq c : ℚ) (out : List ℚ)
    (h : calMultiplicityLike ctx path ext cnt loc σsq c = .ok out) :
    ∀ r ∈ out, r ≤ 0 := by
  rw [calMultiplicityLike] at h
  obtain ⟨raws, hraws, h2⟩ := exceptBind_ok.mp h
  split at h2
  · cases h2
  · cases h2
    intro r hr
    simp only [List.mem_map] at hr
    obtain ⟨rc, hrc, rfl⟩ := hr
    have hmem := List.of_mem_zip hrc
    have h1 : rc.1 ≤ 0 :=
      calMulLoop_ok_nonpos ctx cnt loc σsq c ext path 0 raws hraws rc.1 hmem.1
    have hge : 0 ≤ rc.2 := by
      refine cumSums_mem_nonneg _ ?_ rc.2 hmem.2
      intro x hx
      simp only [List.mem_map] at hx
      obtain ⟨w, _, rfl⟩ := hx
      exact Nat.cast_nonneg _
    exact div_nonpos_iff.mpr (Or.inr ⟨h1, hge⟩)

theorem calMultiplicityLike_entries_nonpos_witness :
    calMultiplicityLike ctxA [(1, true)] [(1, true), (2, true)]
        (nameCount [(1, true)]) 1 1 0 = .ok [-(1/8 : ℚ), 0] ∧
      (-(1/8 : ℚ)) ≤ 0 :=
  ⟨by with_unfolding_all decide,
    calMultiplicityLike_entries_nonpos ctxA [(1, true)] [(1, true), (2, true)]
      (nameCount [(1, true)]) 1 1 0 [-(1/8 : ℚ), 0]
      (by with_unfolding_all decide) (-(1/8 : ℚ)) (by simp)⟩

/-- C1 counterexample: the returned sequence is not monotonically
non-increasing.  Extending the path `[1+]` by `[1+, 2+]` where contig 2
does not occur in the current path yields the de-weighted log-ratio list
`[-1/8, 0]`: the entry for the longer prefix exceeds the entry for the
shorter one (the `current_c == 0` case resets the clamped cumulative
log-ratio to zero). -/
theorem calMultiplicityLike_not_antitone :
    calMultiplicityLike ctxA [(1, true)] [(1, true), (2, true)]
        (nameCount [(1, true)]) 1 1 0 = .ok [-(1/8 : ℚ), 0] ∧
      ¬ ((-(1/8 : ℚ)) ≥ (0 : ℚ)) := by
  constructor
  · with_unfolding_all decide
  · norm_num

/-- `bumpVariant` increments the valid counter by exactly one. -/
theorem bumpVariant_countValid (q : VPath) (st : UniState) :
    (bumpVariant q st).countValid = st.countValid + 1 := by
  unfold bumpVariant
  split <;> rfl

/-- Incrementing an existing entry raises the count total by exactly one. -/
theorem bumpCount_sum (q : VPath) (l : List (VPath × ℕ))
    (h : (l.find? (fun kv => kv.1 = q)).isSome) :
    ((bumpCount q l).map Prod.snd).sum = (l.map Prod.snd).sum + 1 := by
  induction l with
  | nil => simp [List.find?] at h
  | cons kv rest ih =>
      by_cases hk : kv.1 = q
      · simp only [bumpCount, if_pos hk, List.map_cons, List.sum_cons]
        omega
      · have h2 : (rest.find? (fun kv => kv.1 = q)).isSome := by
          simpa [List.find?_cons, hk] using h
        simp only [bumpCount, if_neg hk, List.map_cons, List.sum_cons, ih h2]
        omega

/-- `bumpVariant` keeps the catalog count total equal to the valid
counter. -/
theorem bumpVariant_sum (q : VPath) (st : UniState)
    (hsum : sumCounts st = st.countValid) :
    sumCounts (bumpVariant q st) = (bumpVariant q st).countValid := by
  unfold bumpVariant
  split
  · next h =>
      simp only [sumCounts] at *
      rw [bumpCount_sum q _ h, hsum]
  · simp only [sumCounts, List.map_append, List.sum_append] at *
    simp [hsum]

/-- C10 core: the per-unit insertion loop never pushes the valid counter
past the target — starting strictly below `num_search`, it stops at or
before equality (the break fires exactly at equality). -/
theorem insertLoop_le (ns : ℕ) :
    ∀ (l : List VPath) (st : UniState), st.countValid < ns →
      (insertLoop ns l st).countValid ≤ ns := by
  intro l
  induction l with
  | nil => intro st h; exact le_of_lt h
  | cons q rest ih =>
      intro st h
      rw [insertLoop]
      have hb := bumpVariant_countValid q st
      split
      · next heq => omega
      · next hne => exact ih _ (by omega)

/-- The insertion loop preserves equality of the count total and the valid
counter. -/
theorem insertLoop_sum (ns : ℕ) :
    ∀ (l : List VPath) (st : UniState), sumCounts st = st.countValid →
      sumCounts (insertLoop ns l st) = (insertLoop ns l st).countValid := by
  intro l
  induction l with
  | nil => intro st h; exact h
  | cons q rest ih =>
      intro st h
      rw [insertLoop]
      split
      · exact bumpVariant_sum q st h
      · exact ih _ (bumpVariant_sum q st h)

/-- One coordinator iteration keeps the valid counter at or below the
target and the count total equal to it. -/
theorem uniStep_bounds (ctx : Ctx) (sp : VPath → List VPath) (ns : ℕ) (p : VPath)
    (st st2 : UniState) (h : uniStep ctx sp ns p st = .ok st2)
    (hlt : st.countValid < ns) (hsum : sumCounts st = st.countValid) :
    st2.countValid ≤ ns ∧ sumCounts st2 = st2.countValid := by
  unfold uniStep at h
  split at h
  · cases h
    exact ⟨le_of_lt hlt, hsum⟩
  · obtain ⟨units, _, h2⟩ := exceptBind_ok.mp h
    cases h2
    constructor
    · exact insertLoop_le ns units _ hlt
    · exact insertLoop_sum ns units _ hsum

/-- The while-loop invariant carried to the final state: a completed run
ends with the valid counter exactly at the target and the count total
matching it. -/
theorem genUniLoop_final (ctx : Ctx) (sp : VPath → List VPath) (ns : ℕ)
    (trav : ℕ → VPath) :
    ∀ (fuel : ℕ) (st stF : UniState), st.countValid ≤ ns →
      sumCounts st = st.countValid →
      genUniLoop ctx sp ns trav fuel st = .ok (some stF) →
      stF.countValid = ns ∧ sumCounts stF = ns := by
  intro fuel
  induction fuel with
  | zero =>
      intro st stF hle hsum h
      rw [genUniLoop] at h
      split at h
      · cases h
      · cases h
        next hge => exact ⟨by omega, by omega⟩
  | succ fuel ih =>
      intro st stF hle hsum h
      rw [genUniLoop] at h
      split at h
      · next hlt =>
          obtain ⟨st2, hstep, hrec⟩ := exceptBind_ok.mp h
          obtain ⟨hle2, hsum2⟩ := uniStep_bounds ctx sp ns _ st st2 hstep hlt hsum
          exact ih st2 stF hle2 hsum2 hrec
      · cases h
        next hge => exact ⟨by omega, by omega⟩

/-- C10: in single-process generation the valid-variant counter never
exceeds the target (the per-unit insertion loop stops exactly at
equality, even when decomposition yields several units from one
traversal), and on completion the occurrence counts over the variant
catalog sum to exactly `num_search`. -/
theorem genUniLoop_counts_exact (ctx : Ctx) (sp : VPath → List VPath) (ns : ℕ)
    (trav : ℕ → VPath) (fuel : ℕ) (stF : UniState)
    (h : genUniLoop ctx sp ns trav fuel initUniState = .ok (some stF)) :
    stF.countValid = ns ∧ sumCounts stF = ns ∧
      ∀ (l : List VPath) (st : UniState), st.countValid < ns →
        (insertLoop ns l st).countValid ≤ ns := by
  obtain ⟨h1, h2⟩ := genUniLoop_final ctx sp ns trav fuel initUniState stF
    (by simp [initUniState]) (by simp [sumCounts, initUniState]) h
  exact ⟨h1, h2, fun l st hlt => insertLoop_le ns l st hlt⟩

/-- Witness for `genUniLoop_counts_exact` at a concrete run. -/
theorem genUniLoop_counts_exact_witness :
    c10Final.countValid = 3 ∧ sumCounts c10Final = 3 :=
  ⟨(genUniLoop_counts_exact ctxG (fun _ => []) 3 (fun _ => [(1, true)]) 5 c10Final
      (by with_unfolding_all decide)).1,
    (genUniLoop_counts_exact ctxG (fun _ => []) 3 (fun _ => [(1, true)]) 5 c10Final
      (by with_unfolding_all decide)).2.1⟩

/-- Membership in a filtered-append fold over schemes. -/
theorem foldl_append_mem (P : List VPath → Bool) :
    ∀ (schs : List (List VPath)) (acc : List VPath) (u : VPath),
      (u ∈ schs.foldl (fun a sch => if P sch then a ++ sch else a) acc ↔
        u ∈ acc ∨ ∃ sch, sch ∈ schs ∧ P sch = true ∧ u ∈ sch) := by
  intro schs
  induction schs with
  | nil => intro acc u; simp
  | cons sch rest ih =>
      intro acc u
      rw [List.foldl_cons]
      by_cases hp : P sch = true
      · rw [if_pos hp, ih]
        constructor
        · rintro (hmem | ⟨s2, hs2, hp2, hu⟩)
          · rcases List.mem_append.mp hmem with hacc | hsch
            · exact Or.inl hacc
            · exact Or.inr ⟨sch, List.mem_cons_self _ _, hp, hsch⟩
          · exact Or.inr ⟨s2, List.mem_cons_of_mem _ hs2, hp2, hu⟩
        · rintro (hacc | ⟨s2, hs2, hp2, hu⟩)
          · exact Or.inl (List.mem_append.mpr (Or.inl hacc))
          · rcases List.mem_cons.mp hs2 with rfl | hs2
            · exact Or.inl (List.mem_append.mpr (Or.inr hu))
            · exact Or.inr ⟨s2, hs2, hp2, hu⟩
      · rw [if_neg hp, ih]
        constructor
        · rintro (hacc | ⟨s2, hs2, hp2, hu⟩)
          · exact Or.inl hacc
          · exact Or.inr ⟨s2, List.mem_cons_of_mem _ hs2, hp2, hu⟩
        · rintro (hacc | ⟨s2, hs2, hp2, hu⟩)
          · exact Or.inl hacc
          · rcases List.mem_cons.mp hs2 with rfl | hs2
            · exact absurd hp2 hp
            · exact Or.inr ⟨s2, hs2, hp2, hu⟩

/-- C7: a path appears among the returned decomposition units exactly when
it belongs to a qualifying scheme whose pooled unit sub-paths cover every
sub-path of the original undecomposed path — schemes failing the coverage
check contribute no units at all. -/
theorem circularUnits_mem_iff (ctx : Ctx) (sp : VPath → List VPath) (p u : VPath) :
    u ∈ circularUnitsOf ctx sp p ↔
      ∃ sch, sch ∈ qualifiedSchemesOf ctx p ∧
        ((sp p).all (fun s => (schemeSubs sp sch).contains s)) = true ∧
        u ∈ sch := by
  unfold circularUnitsOf
  rw [foldl_append_mem (fun sch => (sp p).all (fun s => (schemeSubs sp sch).contains s))]
  simp

/-- `getCovMean` without exclusion, unfolded. -/
theorem getCovMean_none_def (ctx : Ctx) (p : VPath) :
    getCovMean ctx p none =
      checkPath ctx p >>= fun _ =>
        npAverage
          (((p.map Prod.fst).dedup).map (fun v => ctx.cov v / (nameCount p v : ℚ)))
          (((p.map Prod.fst).dedup).map
            (fun v => ((ctx.vlen v * nameCount p v : ℕ) : ℚ))) := rfl

/-- `getCovMean` with an exclusion path, unfolded. -/
theorem getCovMean_some_def (ctx : Ctx) (p ex : VPath) :
    getCovMean ctx p (some ex) =
      checkPath ctx p >>= fun _ =>
        npAverage
          ((((p.map Prod.fst).dedup).filter (fun v => exclCnt p ex v ≠ 0)).map
            (fun v => ctx.cov v / (exclCnt p ex v : ℚ)))
          ((((p.map Prod.fst).dedup).filter (fun v => exclCnt p ex v ≠ 0)).map
            (fun v => ((ctx.vlen v * exclCnt p ex v : ℕ) : ℚ))) := rfl

/-- Success of `__check_path` is non-emptiness plus graph membership. -/
theorem checkPath_ok {ctx : Ctx} {p : VPath} {u : Unit} :
    checkPath ctx p = .ok u ↔
      (¬ p = [] ∧ p.all (fun v => ctx.verts.contains v.1) = true) := by
  unfold checkPath
  split_ifs <;> simp_all

/-- `np.average` over per-name value and weight maps. -/
theorem npAverage_maps (ns : List ℕ) (val w : ℕ → ℚ) :
    npAverage (ns.map val) (ns.map w) =
      if (ns.map w).sum = 0 then .error .zeroWeights
      else .ok ((ns.map (fun v => val v * w v)).sum / (ns.map w).sum) := by
  unfold npAverage
  rw [List.zip_map', List.map_map]
  rfl

/-- A contig id occurs among the deduplicated names of a path iff its
occurrence count in the path is positive. -/
theorem mem_dedup_names {p : VPath} {v : ℕ} :
    v ∈ (p.map Prod.fst).dedup ↔ 0 < nameCount p v := by
  rw [List.mem_dedup]
  exact List.count_pos_iff.symm

/-- C5 amended: the length-weighted coverage mean is invariant under
reordering of the contigs in the path; doubling every contig's
multiplicity (concatenating the path with itself) HALVES — rather than
preserves — the weighted mean, since every per-copy coverage halves while
every weight doubles. -/
theorem getCovMean_perm_and_doubling (ctx : Ctx) (p q : VPath) (m : ℚ)
    (hpq : p.Perm q) (hp : getCovMean ctx p none = .ok m) :
    getCovMean ctx q none = .ok m ∧ getCovMean ctx (p ++ p) none = .ok (m / 2) := by
  rw [getCovMean_none_def] at hp
  obtain ⟨u, hchk, havg⟩ := exceptBind_ok.mp hp
  obtain ⟨hne, hall⟩ := checkPath_ok.mp hchk
  rw [npAverage_maps] at havg
  split at havg
  · exact absurd havg (by simp)
  next hden =>
  cases havg
  constructor
  · -- order invariance
    have hchkq : checkPath ctx q = .ok () := by
      rw [checkPath_ok]
      refine ⟨fun h0 => ?_, ?_⟩
      · subst h0
        exact hne hpq.eq_nil
      · rw [List.all_eq_true] at hall ⊢
        intro x hx
        exact hall x (hpq.mem_iff.mpr hx)
    have hcntq : ∀ v, nameCount q v = nameCount p v :=
      fun v => ((hpq.map Prod.fst).count_eq v).symm
    have hpermN : ((q.map Prod.fst).dedup).Perm ((p.map Prod.fst).dedup) :=
      ((hpq.map Prod.fst).dedup).symm
    have hs : ∀ f : ℕ → ℚ,
        (((q.map Prod.fst).dedup).map f).sum = (((p.map Prod.fst).dedup).map f).sum :=
      fun f => (hpermN.map f).sum_eq
    rw [getCovMean_none_def]
    refine exceptBind_ok.mpr ⟨(), hchkq, ?_⟩
    rw [npAverage_maps]
    simp only [hcntq]
    rw [hs, hs, if_neg hden]
  · -- doubling halves
    have hchk2 : checkPath ctx (p ++ p) = .ok () := by
      rw [checkPath_ok]
      refine ⟨fun h0 => hne (List.append_eq_nil.mp h0).1, ?_⟩
      rw [List.all_eq_true] at hall ⊢
      intro x hx
      exact hall x ((List.mem_append.mp hx).elim id id)
    have hcnt2 : ∀ v, nameCount (p ++ p) v = nameCount p v + nameCount p v := by
      intro v
      simp [nameCount, List.count_append]
    have hperm2 : (((p ++ p).map Prod.fst).dedup).Perm ((p.map Prod.fst).dedup) := by
      refine (List.perm_ext_iff_of_nodup (List.nodup_dedup _) (List.nodup_dedup _)).mpr ?_
      intro v
      rw [mem_dedup_names, mem_dedup_names, hcnt2 v]
      omega
    have hs2 : ∀ f : ℕ → ℚ,
        ((((p ++ p).map Prod.fst).dedup).map f).sum =
          (((p.map Prod.fst).dedup).map f).sum :=
      fun f => (hperm2.map f).sum_eq
    rw [getCovMean_none_def]
    refine exceptBind_ok.mpr ⟨(), hchk2, ?_⟩
    rw [npAverage_maps]
    simp only [hcnt2]
    rw [hs2, hs2]
    have hwc : ((p.map Prod.fst).dedup).map
          (fun v => ((ctx.vlen v * (nameCount p v + nameCount p v) : ℕ) : ℚ)) =
        ((p.map Prod.fst).dedup).map
          (fun v => 2 * ((ctx.vlen v * nameCount p v : ℕ) : ℚ)) := by
      refine List.map_congr_left ?_
      intro v _
      push_cast
      ring
    have hnum2 : ((p.map Prod.fst).dedup).map
          (fun v => ctx.cov v / ((nameCount p v + nameCount p v : ℕ) : ℚ) *
            ((ctx.vlen v * (nameCount p v + nameCount p v) : ℕ) : ℚ)) =
        ((p.map Prod.fst).dedup).map (fun v => ctx.cov v * (ctx.vlen v : ℚ)) := by
      refine List.map_congr_left ?_
      intro v hv
      have hc : 0 < nameCount p v := mem_dedup_names.mp hv
      have hc2 : ((nameCount p v : ℕ) : ℚ) ≠ 0 := Nat.cast_ne_zero.mpr (by omega)
      push_cast
      field_simp
      ring
    have hnum1 : ((p.map Prod.fst).dedup).map
          (fun v => ctx.cov v / ((nameCount p v : ℕ) : ℚ) *
            ((ctx.vlen v * nameCount p v : ℕ) : ℚ)) =
        ((p.map Prod.fst).dedup).map (fun v => ctx.cov v * (ctx.vlen v : ℚ)) := by
      refine List.map_congr_left ?_
      intro v hv
      have hc : 0 < nameCount p v := mem_dedup_names.mp hv
      have hc2 : ((nameCount p v : ℕ) : ℚ) ≠ 0 := Nat.cast_ne_zero.mpr (by omega)
      push_cast
      field_simp
      ring
    rw [hwc, List.sum_map_mul_left, hnum2, hnum1]
    rw [if_neg (mul_ne_zero two_ne_zero hden)]
    rw [div_div, mul_comm]

/-- C5 counterexample: doubling every contig's multiplicity does NOT leave
the weighted mean unchanged — the per-copy coverage of the single contig
halves from 10 to 5. -/
theorem getCovMean_doubling_not_invariant :
    getCovMean ctxB [(1, true)] none = .ok 10 ∧
      getCovMean ctxB [(1, true), (1, true)] none = .ok 5 ∧ (10 : ℚ) ≠ 5 :=
  ⟨by with_unfolding_all decide, by with_unfolding_all decide, by norm_num⟩

/-- Witness for `getCovMean_perm_and_doubling` at a concrete path. -/
theorem getCovMean_perm_and_doubling_witness :
    getCovMean ctxB [(1, true)] none = .ok 10 ∧
      getCovMean ctxB [(1, true), (1, true)] none = .ok (10 / 2) := by
  have h := getCovMean_perm_and_doubling ctxB [(1, true)] [(1, true)] 10
    (List.Perm.refl _) (by with_unfolding_all decide)
  exact ⟨h.1, h.2⟩

/-- The effective exclusion count never exceeds the path's own count. -/
theorem exclCnt_le (p q : VPath) (v : ℕ) : exclCnt p q v ≤ nameCount p v := by
  unfold exclCnt
  split <;> omega

/-- C2 amended: `meanCoverage` with an exclusion path raises no error for
excess exclusion requests — a contig whose requested exclusion exceeds its
occurrence count keeps its full count (the code only logs) — and the
returned mean equals the plain mean of any path realizing the effective
post-exclusion occurrence counts. -/
theorem getCovMean_exclusion_effective (ctx : Ctx) (p q p2 : VPath) (m : ℚ)
    (hcnt : ∀ v, nameCount p2 v = exclCnt p q v)
    (h : getCovMean ctx p (some q) = .ok m) :
    getCovMean ctx p2 none = .ok m := by
  rw [getCovMean_some_def] at h
  obtain ⟨u, hchk, havg⟩ := exceptBind_ok.mp h
  obtain ⟨hne, hall⟩ := checkPath_ok.mp hchk
  rw [npAverage_maps] at havg
  split at havg
  · exact absurd havg (by simp)
  next hden =>
  cases havg
  have hmemL : ∀ v, (v ∈ ((p.map Prod.fst).dedup).filter
      (fun v => exclCnt p q v ≠ 0) ↔ 0 < exclCnt p q v) := by
    intro v
    rw [List.mem_filter, mem_dedup_names]
    constructor
    · rintro ⟨h1, h2⟩
      simp only [ne_eq, decide_eq_true_eq] at h2
      omega
    · intro h1
      have hle := exclCnt_le p q v
      refine ⟨by omega, by simp only [ne_eq, decide_eq_true_eq]; omega⟩
  have hpermN : ((p2.map Prod.fst).dedup).Perm
      (((p.map Prod.fst).dedup).filter (fun v => exclCnt p q v ≠ 0)) := by
    refine (List.perm_ext_iff_of_nodup (List.nodup_dedup _)
      ((List.nodup_dedup _).filter _)).mpr ?_
    intro v
    rw [mem_dedup_names, hmemL, hcnt]
  have hne2 : ¬ p2 = [] := by
    intro h0
    apply hden
    have hnil : ((p.map Prod.fst).dedup).filter (fun v => exclCnt p q v ≠ 0) = [] := by
      apply List.filter_eq_nil_iff.mpr
      intro v _
      have hv := hcnt v
      rw [h0] at hv
      simp only [nameCount, List.map_nil, List.count_nil] at hv
      simp only [ne_eq, decide_eq_true_eq]
      omega
    rw [hnil]
    simp
  have hall2 : p2.all (fun v => ctx.verts.contains v.1) = true := by
    rw [List.all_eq_true] at hall ⊢
    intro x hx
    have hx1 : 0 < nameCount p2 x.1 :=
      List.count_pos_iff.mpr (List.mem_map.mpr ⟨x, hx, rfl⟩)
    have hxp : 0 < nameCount p x.1 := by
      have hv := hcnt x.1
      have hle := exclCnt_le p q x.1
      omega
    obtain ⟨y, hy, hyx⟩ := List.mem_map.mp (List.count_pos_iff.mp hxp)
    exact hyx ▸ hall y hy
  rw [getCovMean_none_def]
  refine exceptBind_ok.mpr ⟨(), checkPath_ok.mpr ⟨hne2, hall2⟩, ?_⟩
  rw [npAverage_maps]
  simp only [hcnt]
  have hs : ∀ f : ℕ → ℚ,
      (((p2.map Prod.fst).dedup).map f).sum =
        ((((p.map Prod.fst).dedup).filter (fun v => exclCnt p q v ≠ 0)).map f).sum :=
    fun f => (hpermN.map f).sum_eq
  rw [hs, hs, if_neg hden]

/-- C2 counterexample: requesting the exclusion of two occurrences of a
contig occurring once raises no error — the exclusion is ignored and the
mean is returned. -/
theorem getCovMean_excess_exclusion_no_error :
    getCovMean ctxB [(1, true)] (some [(1, true), (1, true)]) = .ok 10 := by
  with_unfolding_all decide

/-- Witness for `getCovMean_exclusion_effective`: excluding one of two
occurrences matches the plain mean over the remaining occurrence. -/
theorem getCovMean_exclusion_effective_witness :
    getCovMean ctxB [(1, true)] none = .ok 10 :=
  getCovMean_exclusion_effective ctxB [(1, true), (1, true)] [(1, true)] [(1, true)] 10
    (fun v => by
      by_cases h : v = 1
      · subst h; decide
      · simp [nameCount, exclCnt, List.count_cons, h])
    (by with_unfolding_all decide)

/-- The Boolean consecutive-step check agrees with `List.Chain'`. -/
theorem chainB_iff (r : OV → OV → Bool) :
    ∀ l : VPath, chainB r l = true ↔ List.Chain' (fun a b => r a b = true) l := by
  intro l
  induction l with
  | nil => simp [chainB]
  | cons a t ih =>
      cases t with
      | nil => simp [chainB]
      | cons b t2 =>
          rw [chainB, Bool.and_eq_true, List.chain'_cons, ih]

/-- Occurrence positions are the in-range positions holding `s`. -/
theorem mem_occIdx {s : OV} {p : VPath} {j : ℕ} :
    j ∈ occIdx s p ↔ j < p.length ∧ p[j]? = some s := by
  simp [occIdx, List.mem_filter, List.mem_range]

/-- Occurrence positions are strictly increasing. -/
theorem occIdx_pairwise (s : OV) (p : VPath) : (occIdx s p).Pairwise (· < ·) :=
  (List.pairwise_lt_range p.length).filter _

/-- Consecutive entries of a strictly increasing list are increasing. -/
theorem zip_tail_lt :
    ∀ (l : List ℕ), l.Pairwise (· < ·) → ∀ ft ∈ l.zip l.tail, ft.1 < ft.2 := by
  intro l
  induction l with
  | nil => intro _ ft hft; simp at hft
  | cons a t ih =>
      intro hp ft hft
      cases t with
      | nil => simp at hft
      | cons b t2 =>
          rw [List.tail_cons, List.zip_cons_cons] at hft
          rcases List.mem_cons.mp hft with rfl | hft2
          · exact (List.pairwise_cons.mp hp).1 b (List.mem_cons_self _ _)
          · exact ih (List.Pairwise.of_cons hp) ft (by simpa using hft2)

/-- Membership through stable insertion. -/
theorem mem_insertBy {lt : α → α → Bool} {y : α} :
    ∀ {l : List α} {x : α}, x ∈ insertBy lt y l ↔ x = y ∨ x ∈ l := by
  intro l
  induction l with
  | nil => intro x; simp [insertBy]
  | cons a t ih =>
      intro x
      rw [insertBy]
      split
      · simp
      · rw [List.mem_cons, ih, List.mem_cons]
        tauto

/-- Sorting does not change membership. -/
theorem mem_sortBy {lt : α → α → Bool} :
    ∀ {l : List α} {x : α}, x ∈ sortBy lt l ↔ x ∈ l := by
  intro l
  induction l with
  | nil => intro x; simp [sortBy]
  | cons a t ih =>
      intro x
      rw [sortBy, mem_insertBy, ih, List.mem_cons]

/-- Sorting does not change length. -/
theorem length_sortBy {lt : α → α → Bool} :
    ∀ l : List α, (sortBy lt l).length = l.length := by
  have hins : ∀ (y : α) (l : List α), (insertBy lt y l).length = l.length + 1 := by
    intro y l
    induction l with
    | nil => rfl
    | cons a t ih =>
        rw [insertBy]
        split
        · rfl
        · simp [ih]
  intro l
  induction l with
  | nil => rfl
  | cons a t ih => rw [sortBy, hins, ih, List.length_cons]

/-- The defaulted last element of `i :: is` is one of its elements. -/
theorem getLastD_mem (i : ℕ) (is : List ℕ) : is.getLastD i ∈ i :: is := by
  cases is with
  | nil => simp [List.getLastD]
  | cons a t =>
      rw [List.getLastD_eq_getLast?,
        List.getLast?_eq_getLast (a :: t) (by simp)]
      exact List.mem_cons_of_mem _ (List.getLast_mem _)

/-- Decomposition of the circularity check into its three parts. -/
theorem isCircular_parts {ctx : Ctx} {p : VPath} :
    isCircularPath ctx p = true ↔
      (¬ p = [] ∧ List.Chain' (fun a b => edgeB ctx a b = true) p ∧
        wrapB ctx p = true) := by
  unfold isCircularPath
  rw [Bool.and_eq_true, Bool.and_eq_true, chainB_iff]
  constructor
  · rintro ⟨⟨h1, h2⟩, h3⟩
    refine ⟨?_, h2, h3⟩
    intro h0
    subst h0
    simp at h1
  · rintro ⟨h1, h2, h3⟩
    refine ⟨⟨?_, h2⟩, h3⟩
    cases p with
    | nil => exact absurd rfl h1
    | cons x xs => rfl

/-- Extract the wrap-around edge. -/
theorem wrapB_elim {ctx : Ctx} {p : VPath} (h : wrapB ctx p = true) :
    ∃ x y, p.getLast? = some x ∧ p.head? = some y ∧ edgeB ctx x y = true := by
  unfold wrapB at h
  split at h
  · next x y hx hy => exact ⟨x, y, hx, hy, h⟩
  · cases h

/-- Introduce the wrap-around edge. -/
theorem wrapB_intro {ctx : Ctx} {p : VPath} {x y : OV} (hx : p.getLast? = some x)
    (hy : p.head? = some y) (he : edgeB ctx x y = true) : wrapB ctx p = true := by
  unfold wrapB
  rw [hx, hy]
  exact he

/-- The edge between two consecutive positions of a chained path. -/
theorem chain_edge_at (ctx : Ctx) {p : VPath}
    (hch : List.Chain' (fun a b => edgeB ctx a b = true) p)
    {i : ℕ} (hi : i + 1 < p.length) {x y : OV} (hx : p[i]? = some x)
    (hy : p[i + 1]? = some y) : edgeB ctx x y = true := by
  have hcg := List.chain'_iff_get.mp hch i (by omega)
  have h1 : p[i]? = some (p.get ⟨i, by omega⟩) := by
    simp [List.getElem?_eq_getElem]
  have h2 : p[i + 1]? = some (p.get ⟨i + 1, by omega⟩) := by
    simp [List.getElem?_eq_getElem]
  rw [h1] at hx
  rw [h2] at hy
  rw [← Option.some.inj hx, ← Option.some.inj hy]
  exact hcg

/-- A slice of a circular path between two occurrences of the same
oriented contig is itself circular: its interior edges are inherited and
its wrap-around edge is the path's edge into the second occurrence. -/
theorem circ_inner_slice (ctx : Ctx) (p : VPath) (s : OV) (a b : ℕ)
    (hcirc : isCircularPath ctx p = true) (hab : a < b) (hb : b < p.length)
    (has : p[a]? = some s) (hbs : p[b]? = some s) :
    isCircularPath ctx ((p.drop a).take (b - a)) = true := by
  obtain ⟨hne, hch, hwr⟩ := isCircular_parts.mp hcirc
  have hlen : ((p.drop a).take (b - a)).length = b - a := by
    rw [List.length_take, List.length_drop]
    omega
  rw [isCircular_parts]
  refine ⟨?_, ?_, ?_⟩
  · intro h0
    rw [h0] at hlen
    simp at hlen
    omega
  · exact List.Chain'.infix hch ((List.take_prefix _ _).isInfix.trans (List.drop_suffix a p).isInfix)
  · have hhead : ((p.drop a).take (b - a)).head? = some s := by
      rw [List.head?_eq_getElem?, List.getElem?_take_of_lt (by omega : 0 < b - a),
        List.getElem?_drop]
      simpa using has
    have hlast : ((p.drop a).take (b - a)).getLast? = p[b - 1]? := by
      rw [List.getLast?_eq_getElem?, hlen,
        List.getElem?_take_of_lt (by omega : b - a - 1 < b - a), List.getElem?_drop]
      congr 1
      omega
    obtain ⟨x, hx⟩ : ∃ x, p[b - 1]? = some x :=
      ⟨p.get ⟨b - 1, by omega⟩, by simp [List.getElem?_eq_getElem]⟩
    have hbs2 : p[b - 1 + 1]? = some s := by
      rw [show b - 1 + 1 = b by omega]
      exact hbs
    exact wrapB_intro (hlast.trans hx) hhead
      (chain_edge_at ctx hch (by omega) hx hbs2)

/-- The cyclic slice of a circular path from position `a` around the end
to position `b`, both occurrences of the same oriented contig, is
circular. -/
theorem circ_wrap_slice (ctx : Ctx) (p : VPath) (s : OV) (a b : ℕ)
    (hcirc : isCircularPath ctx p = true) (ha : a < p.length) (hb : b < p.length)
    (has : p[a]? = some s) (hbs : p[b]? = some s) :
    isCircularPath ctx (p.drop a ++ p.take b) = true := by
  obtain ⟨hne, hch, hwr⟩ := isCircular_parts.mp hcirc
  obtain ⟨gl, hd, hgl, hhd, hglhd⟩ := wrapB_elim hwr
  have hlend : (p.drop a).length = p.length - a := List.length_drop a p
  have hdne : p.drop a ≠ [] := by
    intro h0
    rw [h0] at hlend
    simp at hlend
    omega
  have hdlast : (p.drop a).getLast? = some gl := by
    rw [List.getLast?_eq_getElem?, List.getElem?_drop, hlend]
    rw [show a + (p.length - a - 1) = p.length - 1 by omega]
    rw [List.getLast?_eq_getElem?] at hgl
    exact hgl
  have hdhead : (p.drop a).head? = some s := by
    rw [List.head?_eq_getElem?, List.getElem?_drop]
    simpa using has
  rw [isCircular_parts]
  refine ⟨by simp [hdne], ?_, ?_⟩
  · rw [List.chain'_append]
    have hinf1 := List.Chain'.infix hch (List.drop_suffix a p).isInfix
    have hinf2 := List.Chain'.infix hch (List.take_prefix b p).isInfix
    refine ⟨hinf1, hinf2, ?_⟩
    intro x hx y hy
    rw [hdlast] at hx
    by_cases hb0 : b = 0
    · subst hb0
      simp at hy
    · have hthead : (p.take b).head? = some hd := by
        rw [List.head?_eq_getElem?, List.getElem?_take_of_lt (by omega : 0 < b),
          ← List.head?_eq_getElem?]
        exact hhd
      rw [hthead] at hy
      have hx2 : gl = x := by simpa using hx
      have hy2 : hd = y := by simpa using hy
      rw [← hx2, ← hy2]
      exact hglhd
  · by_cases hb0 : b = 0
    · subst hb0
      rw [List.take_zero, List.append_nil]
      refine wrapB_intro hdlast hdhead ?_
      have hs0 : s = hd := by
        rw [List.head?_eq_getElem?] at hhd
        rw [hhd] at hbs
        exact (Option.some.inj hbs).symm
      rw [hs0]
      exact hglhd
    · obtain ⟨x2, hx2⟩ : ∃ x2, p[b - 1]? = some x2 :=
        ⟨p.get ⟨b - 1, by omega⟩, by simp [List.getElem?_eq_getElem]⟩
      have hlast2 : (p.drop a ++ p.take b).getLast? = some x2 := by
        rw [List.getLast?_append]
        have h3 : (p.take b).getLast? = p[b - 1]? := by
          rw [List.getLast?_eq_getElem?, List.length_take]
          rw [show min b p.length - 1 = b - 1 by omega]
          exact List.getElem?_take_of_lt (by omega)
        rw [h3, hx2]
        rfl
      have hhead2 : (p.drop a ++ p.take b).head? = some s := by
        rw [List.head?_append, hdhead]
        rfl
      refine wrapB_intro hlast2 hhead2 ?_
      have hbs2 : p[b - 1 + 1]? = some s := by
        rw [show b - 1 + 1 = b by omega]
        exact hbs
      exact chain_edge_at ctx hch (by omega) hx2 hbs2

/-- Folding a binary minimum selection stays within the candidates. -/
theorem foldl_min_mem {α : Type} (lt : α → α → Bool) :
    ∀ (l : List α) (init : α),
      l.foldl (fun acc q => if lt q acc then q else acc) init ∈ init :: l := by
  intro l
  induction l with
  | nil => intro init; simp
  | cons a t ih =>
      intro init
      rw [List.foldl_cons]
      by_cases h : lt a init = true
      · rw [if_pos h]
        rcases List.mem_cons.mp (ih a) with h2 | h2
        · rw [h2]
          exact List.mem_cons_of_mem _ (List.mem_cons_self _ _)
        · exact List.mem_cons_of_mem _ (List.mem_cons_of_mem _ h2)
      · rw [if_neg h]
        rcases List.mem_cons.mp (ih init) with h2 | h2
        · rw [h2]
          exact List.mem_cons_self _ _
        · exact List.mem_cons_of_mem _ (List.mem_cons_of_mem _ h2)

/-- The canonical representative is the path itself or one of its
rotations. -/
theorem canonRot_cases (p : VPath) :
    canonRot p = p ∨ ∃ k, k < p.length ∧ canonRot p = p.rotate k := by
  unfold canonRot
  have h := foldl_min_mem vpathLt ((List.range p.length).map (fun k => p.rotate k)) p
  rcases List.mem_cons.mp h with h2 | h2
  · exact Or.inl h2
  · obtain ⟨k, hk, hkeq⟩ := List.mem_map.mp h2
    exact Or.inr ⟨k, List.mem_range.mp hk, hkeq.symm⟩

/-- A rotation of a circular path is circular. -/
theorem isCircular_rotate (ctx : Ctx) (p : VPath) (k : ℕ)
    (hcirc : isCircularPath ctx p = true) (hk : k < p.length) :
    isCircularPath ctx (p.rotate k) = true := by
  rw [List.rotate_eq_drop_append_take (le_of_lt hk)]
  exact circ_wrap_slice ctx p (p.get ⟨k, hk⟩) k k hcirc hk hk
    (by simp [List.getElem?_eq_getElem]) (by simp [List.getElem?_eq_getElem])

/-- Canonicalization preserves circularity. -/
theorem canonRot_circular (ctx : Ctx) (p : VPath)
    (hcirc : isCircularPath ctx p = true) :
    isCircularPath ctx (canonRot p) = true := by
  rcases canonRot_cases p with h | ⟨k, hk, h⟩
  · rw [h]; exact hcirc
  · rw [h]; exact isCircular_rotate ctx p k hcirc hk

/-- Provenance of elements produced by a fold: each comes from the initial
accumulator or from one of the folded items. -/
theorem foldl_mem_invariant {α β : Type} (F : List β → α → List β)
    (Q : α → β → Prop) (hF : ∀ acc a x, x ∈ F acc a → x ∈ acc ∨ Q a x) :
    ∀ (l : List α) (acc : List β) (x : β),
      x ∈ l.foldl F acc → x ∈ acc ∨ ∃ a ∈ l, Q a x := by
  intro l
  induction l with
  | nil => intro acc x h; exact Or.inl h
  | cons a t ih =>
      intro acc x h
      rw [List.foldl_cons] at h
      rcases ih (F acc a) x h with h2 | ⟨b, hb, hq⟩
      · rcases hF acc a x h2 with h3 | h3
        · exact Or.inl h3
        · exact Or.inr ⟨a, List.mem_cons_self _ _, h3⟩
      · exact Or.inr ⟨b, List.mem_cons_of_mem _ hb, hq⟩

/-- Adding a scheme contributes at most that scheme. -/
theorem addScheme_mem {acc : List (List VPath)} {x sch : List VPath}
    (h : sch ∈ addScheme acc x) : sch ∈ acc ∨ sch = x := by
  unfold addScheme at h
  split at h
  · exact Or.inl h
  · rcases List.mem_append.mp h with h2 | h2
    · exact Or.inl h2
    · exact Or.inr (by simpa using h2)

/-- The deduplication walk only keeps anchors it was given. -/
theorem sneDedupGo_mem (len : ℕ) :
    ∀ (rest : List (OV × List ℕ)) (keep : OV × List ℕ) (step : ℕ)
      (x : OV × List ℕ), x ∈ sneDedupGo len keep step rest → x = keep ∨ x ∈ rest := by
  intro rest
  induction rest with
  | nil =>
      intro keep step x h
      rw [sneDedupGo] at h
      exact Or.inl (by simpa using h)
  | cons c t ih =>
      intro keep step x h
      rw [sneDedupGo] at h
      split at h
      · rcases ih keep (step + 1) x h with h2 | h2
        · exact Or.inl h2
        · exact Or.inr (List.mem_cons_of_mem _ h2)
      · rcases List.mem_cons.mp h with h2 | h2
        · exact Or.inl h2
        · rcases ih c 1 x h2 with h3 | h3
          · rw [h3]
            exact Or.inr (List.mem_cons_self _ _)
          · exact Or.inr (List.mem_cons_of_mem _ h3)

/-- Deduplicated anchors come from the sorted anchor list. -/
theorem sneDedup_mem (len : ℕ) :
    ∀ (l : List (OV × List ℕ)) (x : OV × List ℕ), x ∈ sneDedup len l → x ∈ l := by
  intro l x h
  cases l with
  | nil => rw [sneDedup] at h; simp at h
  | cons a t =>
      rw [sneDedup] at h
      rcases sneDedupGo_mem len t a 1 x h with h2 | h2
      · rw [h2]; exact List.mem_cons_self _ _
      · exact List.mem_cons_of_mem _ h2

/-- Every surviving anchor is a candidate start paired with its occurrence
index list. -/
theorem sneFinalOf_mem {p : VPath} {starts : List OV} {x : OV × List ℕ}
    (h : x ∈ sneFinalOf p starts) : ∃ s ∈ starts, x = (s, occIdx s p) := by
  have hx : x ∈ sneSortedOf p starts := by
    apply sneDedup_mem p.length
    unfold sneFinalOf at h
    split at h
    · exact List.mem_of_mem_tail h
    · exact h
  rw [sneSortedOf, mem_sortBy] at hx
  obtain ⟨s, hs, hsx⟩ := List.mem_map.mp hx
  exact ⟨s, hs, hsx.symm⟩

/-- Every scheme recorded for one unit number is an input scheme or the
scheme of some anchor's split of the path. -/
theorem schemesForNumUnits_mem (ctx : Ctx) (p : VPath) (uq : List OV)
    (vL : List ℕ) (tbl : ℚ) (ctv : List (ℕ × List OV)) (csc : List ℕ)
    (nu : ℕ) (acc : List (List VPath)) (sch : List VPath)
    (h : sch ∈ schemesForNumUnits ctx p uq vL tbl ctv csc nu acc) :
    sch ∈ acc ∨ ∃ s : OV, sch = schemeOfUnits (unitsOf p (occIdx s p)) := by
  unfold schemesForNumUnits at h
  rcases foldl_mem_invariant _
      (fun sidxs x => x = schemeOfUnits (unitsOf p sidxs.2))
      (by
        intro a2 a x hx
        split at hx
        · rcases addScheme_mem hx with h2 | h2
          · exact Or.inl h2
          · exact Or.inr h2
        · exact Or.inl hx)
      _ _ _ h with h2 | ⟨a, ha, hq⟩
  · exact Or.inl h2
  · right
    obtain ⟨s, hs, hsa⟩ := sneFinalOf_mem ha
    refine ⟨s, ?_⟩
    rw [hq, hsa]

/-- Every qualified scheme is the canonicalized sorted split of the path at
the occurrences of some oriented contig. -/
theorem qualifiedSchemesOf_mem (ctx : Ctx) (p : VPath) (sch : List VPath)
    (h : sch ∈ qualifiedSchemesOf ctx p) :
    ∃ s : OV, sch = schemeOfUnits (unitsOf p (occIdx s p)) := by
  unfold qualifiedSchemesOf at h
  rcases foldl_mem_invariant _
      (fun _ x => ∃ s : OV, x = schemeOfUnits (unitsOf p (occIdx s p)))
      (by
        intro a2 nu x hx
        exact schemesForNumUnits_mem ctx p _ _ _ _ _ nu a2 x hx)
      _ _ _ h with h2 | ⟨a, _, hq⟩
  · simp at h2
  · exact hq

/-- Every unit split off a circular path at the occurrences of an oriented
contig is itself circular. -/
theorem unitsOf_circular (ctx : Ctx) (p : VPath) (s : OV)
    (hcirc : isCircularPath ctx p = true) :
    ∀ u ∈ unitsOf p (occIdx s p), isCircularPath ctx u = true := by
  intro u hu
  rcases hocc : occIdx s p with _ | ⟨i, is⟩
  · rw [hocc] at hu
    simp [unitsOf] at hu
  · rw [hocc, unitsOf] at hu
    have hpw : (i :: is).Pairwise (· < ·) := hocc ▸ occIdx_pairwise s p
    have hmem : ∀ j ∈ i :: is, j < p.length ∧ p[j]? = some s := by
      intro j hj
      exact mem_occIdx.mp (hocc ▸ hj)
    rcases List.mem_append.mp hu with h1 | h1
    · obtain ⟨ft, hft, hfteq⟩ := List.mem_map.mp h1
      obtain ⟨f, t⟩ := ft
      have hlt : f < t := zip_tail_lt (i :: is) hpw (f, t) (by simpa using hft)
      obtain ⟨hf, ht⟩ := List.of_mem_zip hft
      have hfm := hmem f hf
      have htm := hmem t (List.mem_cons_of_mem _ ht)
      rw [← hfteq]
      exact circ_inner_slice ctx p s f t hcirc hlt htm.1 hfm.2 htm.2
    · have h1' : u = p.drop (is.getLastD i) ++ p.take i := by simpa using h1
      have ham := hmem (is.getLastD i) (getLastD_mem i is)
      have him := hmem i (List.mem_cons_self _ _)
      rw [h1']
      exact circ_wrap_slice ctx p s (is.getLastD i) i hcirc ham.1 him.1 ham.2 him.2

/-- A returned decomposition unit belongs to some qualified scheme. -/
theorem circularUnits_mem_of (ctx : Ctx) (sp : VPath → List VPath) (p u : VPath)
    (h : u ∈ circularUnitsOf ctx sp p) :
    ∃ sch ∈ qualifiedSchemesOf ctx p, u ∈ sch := by
  unfold circularUnitsOf at h
  rw [foldl_append_mem (fun sch => (sp p).all (fun s => (schemeSubs sp sch).contains s))] at h
  rcases h with h | ⟨sch, hsch, _, hu⟩
  · simp at h
  · exact ⟨sch, hsch, hu⟩

/-- Decomposing a circular path yields only circular units. -/
theorem decomposeHeteroUnits_circular (ctx : Ctx) (sp : VPath → List VPath)
    (p : VPath) (l : List VPath) (hcirc : isCircularPath ctx p = true)
    (h : decomposeHeteroUnits ctx sp p = .ok l) :
    ∀ u ∈ l, isCircularPath ctx u = true := by
  intro u hu
  have hself : u ∈ [p] → isCircularPath ctx u = true := by
    intro hup
    rw [List.mem_singleton.mp hup]
    exact hcirc
  have hunits : u ∈ circularUnitsOf ctx sp p → isCircularPath ctx u = true := by
    intro hcu
    obtain ⟨sch, hsch, husch⟩ := circularUnits_mem_of ctx sp p u hcu
    obtain ⟨s, hs⟩ := qualifiedSchemesOf_mem ctx p sch hsch
    rw [hs, schemeOfUnits, mem_sortBy] at husch
    obtain ⟨u0, hu0, hu0eq⟩ := List.mem_map.mp husch
    rw [← hu0eq]
    exact canonRot_circular ctx u0 (unitsOf_circular ctx p s hcirc u0 hu0)
  unfold decomposeHeteroUnits at h
  split at h
  · cases h; exact hself hu
  · split at h
    · cases h
    · split at h
      · cases h; exact hself hu
      · split at h
        · cases h
        · split at h
          · cases h
          · split at h
            · cases h; exact hself hu
            · cases h; exact hunits hu

/-- The catalog's path list grows only by the inserted path. -/
theorem bumpVariant_variants_mem (q u : VPath) (st : UniState)
    (h : u ∈ (bumpVariant q st).variants) : u ∈ st.variants ∨ u = q := by
  unfold bumpVariant at h
  split at h
  · exact Or.inl h
  · simp only at h
    rcases List.mem_append.mp h with h2 | h2
    · exact Or.inl h2
    · exact Or.inr (by simpa using h2)

/-- The insertion loop adds only paths from the produced list. -/
theorem insertLoop_variants_mem (ns : ℕ) :
    ∀ (l : List VPath) (st : UniState) (u : VPath),
      u ∈ (insertLoop ns l st).variants → u ∈ st.variants ∨ u ∈ l := by
  intro l
  induction l with
  | nil => intro st u h; exact Or.inl h
  | cons q rest ih =>
      intro st u h
      rw [insertLoop] at h
      split at h
      · rcases bumpVariant_variants_mem q u st h with h2 | h2
        · exact Or.inl h2
        · exact Or.inr (by rw [h2]; exact List.mem_cons_self _ _)
      · rcases ih _ _ h with h2 | h2
        · rcases bumpVariant_variants_mem q u st h2 with h3 | h3
          · exact Or.inl h3
          · exact Or.inr (by rw [h3]; exact List.mem_cons_self _ _)
        · exact Or.inr (List.mem_cons_of_mem _ h2)

/-- Under `force_circular`, one coordinator step only adds circular paths
to the catalog. -/
theorem uniStep_variants_circular (ctx : Ctx) (sp : VPath → List VPath) (ns : ℕ)
    (q : VPath) (st st' : UniState) (hfc : ctx.forceCircular = true)
    (hstep : uniStep ctx sp ns q st = .ok st') :
    ∀ u ∈ st'.variants, u ∈ st.variants ∨ isCircularPath ctx u = true := by
  intro u hu
  unfold uniStep at hstep
  split at hstep
  · cases hstep
    exact Or.inl hu
  · next hcond =>
      cases hcq : isCircularPath ctx q with
      | false => exact absurd (by rw [hfc, hcq]; rfl) hcond
      | true =>
          obtain ⟨l, hl, hins⟩ := exceptBind_ok.mp hstep
          rw [if_pos hcq] at hl
          cases hins
          rcases insertLoop_variants_mem ns l _ u hu with h2 | h2
          · exact Or.inl h2
          · exact Or.inr (decomposeHeteroUnits_circular ctx sp q l hcq hl u h2)

/-- Under `force_circular`, the circularity of all catalog entries is a
loop invariant of the coordinator. -/
theorem genUniLoop_variants_circular (ctx : Ctx) (sp : VPath → List VPath)
    (ns : ℕ) (trav : ℕ → VPath) (hfc : ctx.forceCircular = true) :
    ∀ (fuel : ℕ) (st st' : UniState),
      (∀ u ∈ st.variants, isCircularPath ctx u = true) →
      genUniLoop ctx sp ns trav fuel st = .ok (some st') →
      ∀ u ∈ st'.variants, isCircularPath ctx u = true := by
  intro fuel
  induction fuel with
  | zero =>
      intro st st' hinv h
      rw [genUniLoop] at h
      split at h
      · cases h
      · cases h
        exact hinv
  | succ fuel ih =>
      intro st st' hinv h
      rw [genUniLoop] at h
      split at h
      · obtain ⟨st1, hstep, hrec⟩ := exceptBind_ok.mp h
        refine ih st1 st' ?_ hrec
        intro u hu
        rcases uniStep_variants_circular ctx sp ns _ st st1 hfc hstep u hu with h2 | h2
        · exact hinv u h2
        · exact h2
      · cases h
        exact hinv

/-- C8: the structural invariant holds for circularity but is stated here
in its corrected form — under `force_circular` every entry of the final
variant catalog is circular (decomposition units included, since
decomposition splits a circular traversal at repeated oriented contigs and
canonicalizes by rotation, both of which preserve circularity), and any
traversal result whose coordinator step inserts anything into the catalog
itself passes both structural checks (circularity under `force_circular`,
full graph coverage when heterogeneous chromosomes are disallowed).  The
coverage half of the original claim fails for decomposition units — see
the counterexample. -/
theorem insertedVariants_structural (ctx : Ctx) (sp : VPath → List VPath)
    (ns : ℕ) (trav : ℕ → VPath) (fuel : ℕ) (stF : UniState)
    (q : VPath) (st0 st1 : UniState)
    (hfc : ctx.forceCircular = true)
    (hloop : genUniLoop ctx sp ns trav fuel initUniState = .ok (some stF))
    (hstep : uniStep ctx sp ns q st0 = .ok st1)
    (hchanged : st1.countValid ≠ st0.countValid) :
    (∀ u ∈ stF.variants, isCircularPath ctx u = true) ∧
      isCircularPath ctx q = true ∧
      (ctx.heteroChromosome = false → isFullyCoveredBy ctx q = true) := by
  have hcond : ¬ ((ctx.forceCircular && !isCircularPath ctx q) ||
      (!ctx.heteroChromosome && !isFullyCoveredBy ctx q)) = true := by
    intro hc
    unfold uniStep at hstep
    rw [if_pos hc] at hstep
    cases hstep
    exact hchanged rfl
  have hcq : isCircularPath ctx q = true := by
    cases hcq : isCircularPath ctx q with
    | true => rfl
    | false => exact absurd (by rw [hfc, hcq]; rfl) hcond
  refine ⟨genUniLoop_variants_circular ctx sp ns trav hfc fuel initUniState stF
    (by simp [initUniState]) hloop, hcq, ?_⟩
  intro hh
  cases hcv : isFullyCoveredBy ctx q with
  | true => rfl
  | false => exact absurd (by rw [hfc, hcq, hh, hcv]; rfl) hcond

/-- Witness for `insertedVariants_structural` at the concrete two-loop
graph run. -/
theorem insertedVariants_structural_witness :
    (∀ u ∈ uD.variants, isCircularPath ctxD u = true) ∧
      isCircularPath ctxD pD = true ∧
      (ctxD.heteroChromosome = false → isFullyCoveredBy ctxD pD = true) :=
  insertedVariants_structural ctxD (fun _ => []) 2 (fun _ => pD) 1 uD pD
    initUniState uD rfl (by with_unfolding_all decide)
    (by with_unfolding_all decide) (by decide)

/-- C8 counterexample: heterogeneous chromosomes are disallowed and the
traversal result `pD` fully covers the graph, yet the coordinator step
inserts the decomposition unit `1+ 2+ 4+ 5+` into the catalog although it
misses contig 3 — catalog entries produced by hetero-unit decomposition
need not satisfy the coverage-completeness constraint. -/
theorem uniStep_inserts_uncovered_unit :
    ctxD.heteroChromosome = false ∧
      isFullyCoveredBy ctxD pD = true ∧
      uniStep ctxD (fun _ => []) 2 pD initUniState = .ok uD ∧
      [(1, true), (2, true), (4, true), (5, true)] ∈ uD.variants ∧
      isFullyCoveredBy ctxD [(1, true), (2, true), (4, true), (5, true)] = false :=
  ⟨rfl, by with_unfolding_all decide, by with_unfolding_all decide,
    by with_unfolding_all decide, by with_unfolding_all decide⟩

/-- The Python tuple order on oriented contigs is irreflexive. -/
theorem ovLt_irrefl (a : OV) : ovLt a a = false := by
  obtain ⟨n, e⟩ := a
  cases e <;> simp [ovLt]

/-- Mutually incomparable oriented contigs are equal. -/
theorem ovLt_asymm_eq {a b : OV} (h1 : ovLt a b = false) (h2 : ovLt b a = false) :
    a = b := by
  obtain ⟨n1, e1⟩ := a
  obtain ⟨n2, e2⟩ := b
  cases e1 <;> cases e2 <;> simp_all [ovLt] <;> omega

/-- The Python tuple order on oriented contigs is transitive. -/
theorem ovLt_trans {a b c : OV} (h1 : ovLt a b = true) (h2 : ovLt b c = true) :
    ovLt a c = true := by
  obtain ⟨n1, e1⟩ := a
  obtain ⟨n2, e2⟩ := b
  obtain ⟨n3, e3⟩ := c
  cases e1 <;> cases e2 <;> cases e3 <;> simp_all [ovLt] <;> omega

/-- The Python tuple order on paths is irreflexive. -/
theorem vpathLt_irrefl : ∀ p : VPath, vpathLt p p = false := by
  intro p
  induction p with
  | nil => rfl
  | cons a as ih => rw [vpathLt]; simp [ovLt_irrefl, ih]

/-- Mutually incomparable paths are equal. -/
theorem vpathLt_asymm_eq : ∀ {p q : VPath},
    vpathLt p q = false → vpathLt q p = false → p = q := by
  intro p
  induction p with
  | nil =>
      intro q h1 h2
      cases q with
      | nil => rfl
      | cons b bs => simp [vpathLt] at h1
  | cons a as ih =>
      intro q h1 h2
      cases q with
      | nil => simp [vpathLt] at h2
      | cons b bs =>
          rw [vpathLt, Bool.or_eq_false_iff] at h1 h2
          have hab : a = b := ovLt_asymm_eq h1.1 h2.1
          subst hab
          have hr1 : vpathLt as bs = false := by
            rcases Bool.and_eq_false_iff.mp h1.2 with h | h
            · simp at h
            · exact h
          have hr2 : vpathLt bs as = false := by
            rcases Bool.and_eq_false_iff.mp h2.2 with h | h
            · simp at h
            · exact h
          rw [ih hr1 hr2]

/-- The Python tuple order on paths is transitive. -/
theorem vpathLt_trans : ∀ {p q r : VPath},
    vpathLt p q = true → vpathLt q r = true → vpathLt p r = true := by
  intro p
  induction p with
  | nil =>
      intro q r h1 h2
      cases r with
      | nil =>
          cases q with
          | nil => simp [vpathLt] at h1
          | cons b bs => simp [vpathLt] at h2
      | cons c cs => simp [vpathLt]
  | cons a as ih =>
      intro q r h1 h2
      cases q with
      | nil => simp [vpathLt] at h1
      | cons b bs =>
          cases r with
          | nil => simp [vpathLt] at h2
          | cons c cs =>
              rw [vpathLt] at h1 h2 ⊢
              simp only [Bool.or_eq_true, Bool.and_eq_true, decide_eq_true_eq]
                at h1 h2 ⊢
              rcases h1 with h1' | ⟨hab, hres1⟩
              · rcases h2 with h2' | ⟨hbc, hres2⟩
                · exact Or.inl (ovLt_trans h1' h2')
                · subst hbc
                  exact Or.inl h1'
              · subst hab
                rcases h2 with h2' | ⟨hbc, hres2⟩
                · exact Or.inl h2'
                · subst hbc
                  exact Or.inr ⟨rfl, ih hres1 hres2⟩

/-- A path either strictly precedes another or does not; failing both ways
forces equality or a strict relation the other way. -/
theorem vpathLt_connex {p q : VPath} (h : vpathLt p q = false) :
    vpathLt q p = true ∨ p = q := by
  cases hqp : vpathLt q p with
  | true => exact Or.inl rfl
  | false => exact Or.inr (vpathLt_asymm_eq h hqp)

/-- The selected minimum is not strictly above any candidate. -/
theorem foldl_min_not_lt :
    ∀ (l : List VPath) (init : VPath) (x : VPath), x ∈ init :: l →
      vpathLt x (l.foldl (fun acc q => if vpathLt q acc then q else acc) init) = false := by
  intro l
  induction l with
  | nil =>
      intro init x hx
      have hxi : x = init := by simpa using hx
      rw [List.foldl_nil, hxi]
      exact vpathLt_irrefl _
  | cons a t ih =>
      intro init x hx
      rw [List.foldl_cons]
      by_cases hai : vpathLt a init = true
      · rw [if_pos hai]
        rcases List.mem_cons.mp hx with rfl | hx2
        · cases hres : vpathLt x (t.foldl (fun acc q => if vpathLt q acc then q else acc) a) with
          | false => rfl
          | true =>
              have hax := ih a a (List.mem_cons_self _ _)
              exact absurd (vpathLt_trans hai hres) (by rw [hax]; simp)
        · rcases List.mem_cons.mp hx2 with rfl | hx3
          · exact ih x x (List.mem_cons_self _ _)
          · exact ih a x (List.mem_cons_of_mem _ hx3)
      · rw [if_neg hai]
        have hai' : vpathLt a init = false := by
          cases h : vpathLt a init with
          | false => rfl
          | true => exact absurd h hai
        rcases List.mem_cons.mp hx with rfl | hx2
        · exact ih x x (List.mem_cons_self _ _)
        · rcases List.mem_cons.mp hx2 with rfl | hx3
          · cases hres : vpathLt x (t.foldl (fun acc q => if vpathLt q acc then q else acc) init) with
            | false => rfl
            | true =>
                have hinit := ih init init (List.mem_cons_self _ _)
                rcases vpathLt_connex hinit with hri | hri
                · exact absurd (vpathLt_trans hres hri) (by rw [hai']; simp)
                · rw [hri] at hai'
                  exact absurd hres (by rw [hai']; simp)
          · exact ih init x (List.mem_cons_of_mem _ hx3)

/-- The canonical representative is minimal among the path and all its
rotations. -/
theorem canonRot_min (p : VPath) :
    ∀ x ∈ p :: (List.range p.length).map (fun k => p.rotate k),
      vpathLt x (canonRot p) = false := by
  intro x hx
  exact foldl_min_not_lt _ p x hx

/-- Any rotation of a path can be reached by rotating any other rotation of
it. -/
theorem exists_rotate_eq (p : VPath) (k j : ℕ) (hn : 0 < p.length) :
    ∃ t < p.length, (p.rotate k).rotate t = p.rotate j := by
  refine ⟨(p.length - k % p.length + j % p.length) % p.length,
    Nat.mod_lt _ hn, ?_⟩
  rw [List.rotate_rotate]
  rw [← List.rotate_mod p (k + (p.length - k % p.length + j % p.length) % p.length),
    ← List.rotate_mod p j]
  congr 1
  have hk := Nat.mod_lt k hn
  have step1 : k + (p.length - k % p.length + j % p.length) % p.length ≡
      k % p.length + (p.length - k % p.length + j % p.length) [MOD p.length] :=
    Nat.ModEq.add (Nat.mod_modEq k p.length).symm
      (Nat.mod_modEq (p.length - k % p.length + j % p.length) p.length)
  have step2 : k % p.length + (p.length - k % p.length + j % p.length) =
      p.length + j % p.length := by omega
  have step3 : p.length + j % p.length ≡ j % p.length [MOD p.length] :=
    Nat.add_mod_left p.length (j % p.length)
  have step4 : j % p.length ≡ j [MOD p.length] := Nat.mod_modEq j p.length
  exact ((step1.trans (step2 ▸ Nat.ModEq.refl _)).trans step3).trans step4

/-- The canonical representative of a circular path is invariant under
rotation of the representative fed to it. -/
theorem canonRot_rotate (p : VPath) (k : ℕ) :
    canonRot (p.rotate k) = canonRot p := by
  rcases Nat.eq_zero_or_pos p.length with hn | hn
  · have hp : p = [] := List.length_eq_zero.mp hn
    subst hp
    rw [List.rotate_nil]
  · have hA : ∃ jA < p.length, canonRot p = p.rotate jA := by
      rcases canonRot_cases p with h | ⟨j, hj, h⟩
      · exact ⟨0, hn, by rw [h, List.rotate_zero]⟩
      · exact ⟨j, hj, h⟩
    have hB : ∃ jB < p.length, canonRot (p.rotate k) = (p.rotate k).rotate jB := by
      rcases canonRot_cases (p.rotate k) with h | ⟨j, hj, h⟩
      · exact ⟨0, hn, by rw [h, List.rotate_zero]⟩
      · exact ⟨j, by rw [List.length_rotate] at hj; exact hj, h⟩
    obtain ⟨jA, hjA, hAeq⟩ := hA
    obtain ⟨jB, hjB, hBeq⟩ := hB
    have hBrot : canonRot (p.rotate k) = p.rotate ((k + jB) % p.length) := by
      rw [hBeq, List.rotate_rotate, List.rotate_mod]
    have hBA : vpathLt (canonRot (p.rotate k)) (canonRot p) = false := by
      refine canonRot_min p _ (List.mem_cons_of_mem _ ?_)
      exact List.mem_map.mpr ⟨(k + jB) % p.length,
        List.mem_range.mpr (Nat.mod_lt _ hn), hBrot.symm⟩
    have hAB : vpathLt (canonRot p) (canonRot (p.rotate k)) = false := by
      obtain ⟨t, ht, hteq⟩ := exists_rotate_eq p k jA hn
      refine canonRot_min (p.rotate k) _ (List.mem_cons_of_mem _ ?_)
      refine List.mem_map.mpr ⟨t, List.mem_range.mpr ?_, ?_⟩
      · rw [List.length_rotate]; exact ht
      · rw [hteq, hAeq]
    rw [vpathLt_asymm_eq hBA hAB]

/-- Stable insertion permutes. -/
theorem insertBy_perm {α : Type} (lt : α → α → Bool) (x : α) :
    ∀ l : List α, (insertBy lt x l).Perm (x :: l) := by
  intro l
  induction l with
  | nil => exact List.Perm.refl _
  | cons y ys ih =>
      rw [insertBy]
      split
      · exact List.Perm.refl _
      · exact (List.Perm.cons y ih).trans (List.Perm.swap x y ys)

/-- Insertion sort permutes. -/
theorem sortBy_perm {α : Type} (lt : α → α → Bool) :
    ∀ l : List α, (sortBy lt l).Perm l := by
  intro l
  induction l with
  | nil => exact List.Perm.refl _
  | cons x xs ih =>
      rw [sortBy]
      exact (insertBy_perm lt x (sortBy lt xs)).trans (List.Perm.cons x ih)

/-- Inserting an element into copies of itself under an irreflexive
comparator appends it. -/
theorem insertBy_self_replicate {α : Type} (lt : α → α → Bool) (x : α)
    (hx : lt x x = false) :
    ∀ k : ℕ, insertBy lt x (List.replicate k x) = List.replicate (k + 1) x := by
  intro k
  induction k with
  | zero => rfl
  | succ k ih =>
      rw [List.replicate_succ, insertBy, if_neg (by rw [hx]; simp), ih]
      rfl

/-- Sorting copies of a single element changes nothing. -/
theorem sortBy_replicate {α : Type} (lt : α → α → Bool) (x : α)
    (hx : lt x x = false) :
    ∀ k : ℕ, sortBy lt (List.replicate k x) = List.replicate k x := by
  intro k
  induction k with
  | zero => rfl
  | succ k ih =>
      rw [List.replicate_succ, sortBy, ih, insertBy_self_replicate lt x hx,
        List.replicate_succ]

/-- Zero copies form the empty path. -/
theorem repeatPath_zero (u : VPath) : repeatPath 0 u = [] := rfl

/-- One more copy prepends the unit. -/
theorem repeatPath_succ (m : ℕ) (u : VPath) :
    repeatPath (m + 1) u = u ++ repeatPath m u := by
  rw [repeatPath, repeatPath, List.replicate_succ]
  rfl

/-- A single copy is the unit itself. -/
theorem repeatPath_one (u : VPath) : repeatPath 1 u = u := by
  rw [repeatPath_succ, repeatPath_zero, List.append_nil]

/-- The length of the concatenated copies. -/
theorem length_repeatPath (u : VPath) :
    ∀ m, (repeatPath m u).length = m * u.length := by
  intro m
  induction m with
  | zero =>
      rw [repeatPath_zero]
      simp
  | succ m ih =>
      rw [repeatPath_succ, List.length_append, ih]
      ring

/-- Occurrence counts multiply under concatenated copies. -/
theorem count_repeatPath (u : VPath) (v : OV) :
    ∀ m, (repeatPath m u).count v = m * u.count v := by
  intro m
  induction m with
  | zero =>
      rw [repeatPath_zero]
      simp
  | succ m ih =>
      rw [repeatPath_succ, List.count_append, ih]
      ring

/-- Members of the concatenated copies are members of the unit. -/
theorem mem_repeatPath {u : VPath} {x : OV} :
    ∀ {m : ℕ}, x ∈ repeatPath m u → x ∈ u := by
  intro m
  induction m with
  | zero =>
      intro h
      simp [repeatPath] at h
  | succ m ih =>
      intro h
      rw [repeatPath_succ] at h
      rcases List.mem_append.mp h with h | h
      · exact h
      · exact ih h

/-- Occurrence positions in a path headed by one element. -/
theorem occIdx_cons (s x : OV) (t : VPath) :
    occIdx s (x :: t) = (if x = s then [0] else []) ++ (occIdx s t).map (· + 1) := by
  unfold occIdx
  rw [List.length_cons, List.range_succ_eq_map, List.filter_cons, List.filter_map]
  have hpred : ((fun j => decide ((x :: t)[j]? = some s)) ∘ Nat.succ) =
      (fun j => decide (t[j]? = some s)) := by
    funext j
    simp [Function.comp, List.getElem?_cons_succ]
  rw [hpred, show (Nat.succ : ℕ → ℕ) = (· + 1) from funext fun n => rfl]
  by_cases hxs : x = s
  · simp [hxs]
  · simp [hxs]

/-- Occurrence positions in an appended path. -/
theorem occIdx_append (s : OV) :
    ∀ (a b : VPath),
      occIdx s (a ++ b) = occIdx s a ++ (occIdx s b).map (· + a.length) := by
  intro a
  induction a with
  | nil =>
      intro b
      rw [List.nil_append, show occIdx s ([] : VPath) = [] from rfl,
        List.nil_append, List.length_nil]
      simp
  | cons x t ihx =>
      intro b
      have htail : (occIdx s b).map ((· + 1) ∘ (· + t.length)) =
          (occIdx s b).map (· + (t.length + 1)) := by
        apply List.map_congr_left
        intro j hj
        simp only [Function.comp_apply]
        omega
      rw [List.cons_append, occIdx_cons, occIdx_cons, ihx, List.map_append,
        List.map_map, List.length_cons, htail, List.append_assoc]

/-- A strictly increasing list whose members are exactly one value is that
singleton. -/
theorem pairwise_lt_mem_singleton {p0 : ℕ} :
    ∀ l : List ℕ, l.Pairwise (· < ·) → (∀ j, j ∈ l ↔ j = p0) → l = [p0] := by
  intro l hpw hmem
  cases l with
  | nil => exact absurd ((hmem p0).mpr rfl) (List.not_mem_nil p0)
  | cons a t =>
      have ha : a = p0 := (hmem a).mp (List.mem_cons_self _ _)
      subst ha
      cases t with
      | nil => rfl
      | cons b t2 =>
          have hb : b = a :=
            (hmem b).mp (List.mem_cons_of_mem _ (List.mem_cons_self _ _))
          have hab : a < b := (List.pairwise_cons.mp hpw).1 b (List.mem_cons_self _ _)
          omega

/-- In a duplicate-free path an element occurs at exactly its one
position. -/
theorem occIdx_eq_single {u : VPath} {s : OV} {p0 : ℕ} (hnd : u.Nodup)
    (hp0 : u[p0]? = some s) : occIdx s u = [p0] := by
  have hlt : p0 < u.length := by
    rcases List.getElem?_eq_some_iff.mp hp0 with ⟨h, _⟩
    exact h
  apply pairwise_lt_mem_singleton _ (occIdx_pairwise s u)
  intro j
  rw [mem_occIdx]
  constructor
  · rintro ⟨hj, hjs⟩
    exact List.getElem?_inj hj hnd (by rw [hjs, hp0])
  · rintro rfl
    exact ⟨hlt, hp0⟩

/-- In the `m`-fold repeat of a duplicate-free unit an element occurs at
the arithmetic progression of its unit position. -/
theorem occIdx_repeat {u : VPath} {s : OV} {p0 : ℕ} (hnd : u.Nodup)
    (hp0 : u[p0]? = some s) :
    ∀ m : ℕ, occIdx s (repeatPath m u) =
      (List.range m).map (fun j => j * u.length + p0) := by
  intro m
  induction m with
  | zero => rfl
  | succ m ih =>
      rw [repeatPath_succ, occIdx_append, ih, occIdx_eq_single hnd hp0,
        List.range_succ_eq_map, List.map_cons, List.map_map, List.map_map]
      simp only [Nat.zero_mul, Nat.zero_add, List.singleton_append]
      congr 1
      apply List.map_congr_left
      intro j hj
      simp only [Function.comp_apply, Nat.succ_eq_add_one]
      ring

/-- Dropping whole unit copies plus an offset from the repeat. -/
theorem drop_mul_add (u : VPath) :
    ∀ (j m p0 : ℕ), j ≤ m →
      (repeatPath m u).drop (j * u.length + p0) = (repeatPath (m - j) u).drop p0 := by
  intro j
  induction j with
  | zero =>
      intro m p0 h
      rw [Nat.zero_mul, Nat.zero_add, Nat.sub_zero]
  | succ j ih =>
      intro m p0 h
      obtain ⟨m', rfl⟩ : ∃ m', m = m' + 1 := ⟨m - 1, by omega⟩
      rw [repeatPath_succ,
        show (j + 1) * u.length + p0 = u.length + (j * u.length + p0) from by ring,
        List.drop_append, ih m' p0 (by omega),
        show m' + 1 - (j + 1) = m' - j from by omega]

/-- Taking within the first copy of the repeat. -/
theorem take_repeatPath (u : VPath) (m : ℕ) (hm : 1 ≤ m) (k : ℕ)
    (hk : k ≤ u.length) : (repeatPath m u).take k = u.take k := by
  obtain ⟨m', rfl⟩ : ∃ m', m = m' + 1 := ⟨m - 1, by omega⟩
  rw [repeatPath_succ, List.take_append_of_le_length hk]

/-- A unit-length slice of the repeat starting at offset `p0` into the
`j`-th copy is the unit rotated to `p0`. -/
theorem slice_repeatPath (u : VPath) (m j p0 : ℕ) (hp0 : p0 < u.length)
    (hj : j + 2 ≤ m) :
    ((repeatPath m u).drop (j * u.length + p0)).take u.length = u.rotate p0 := by
  rw [drop_mul_add u j m p0 (by omega),
    show m - j = (m - j - 1) + 1 from by omega, repeatPath_succ,
    List.drop_append_of_le_length (le_of_lt hp0),
    List.take_append_eq_append_take,
    List.take_of_length_le (by rw [List.length_drop]; omega),
    List.length_drop,
    show u.length - (u.length - p0) = p0 from by omega,
    take_repeatPath u (m - j - 1) (by omega) p0 (le_of_lt hp0),
    ← List.rotate_eq_drop_append_take (le_of_lt hp0)]

/-- The wrap-around slice of the repeat from the last copy's offset back to
the first copy's offset is the unit rotated to `p0`. -/
theorem wrap_repeatPath (u : VPath) (m' p0 : ℕ) (hp0 : p0 < u.length) :
    (repeatPath (m' + 1) u).drop (m' * u.length + p0) ++
      (repeatPath (m' + 1) u).take p0 = u.rotate p0 := by
  rw [drop_mul_add u m' (m' + 1) p0 (by omega),
    show m' + 1 - m' = 1 from by omega, repeatPath_one,
    take_repeatPath u (m' + 1) (by omega) p0 (le_of_lt hp0),
    ← List.rotate_eq_drop_append_take (le_of_lt hp0)]

/-- Zipping the anchor-index list with its own tail pairs consecutive
indices. -/
theorem zip_shifted_range {α : Type} (f : ℕ → α) (m : ℕ) :
    ((f 0 :: (List.range m).map (fun j => f (j + 1))).zip
        ((List.range m).map (fun j => f (j + 1)))) =
      (List.range m).map (fun j => (f j, f (j + 1))) := by
  apply List.ext_getElem?
  intro i
  rw [show ((f 0 :: (List.range m).map (fun j => f (j + 1))).zip
      ((List.range m).map (fun j => f (j + 1)))) =
    List.zipWith Prod.mk (f 0 :: (List.range m).map (fun j => f (j + 1)))
      ((List.range m).map (fun j => f (j + 1))) from rfl]
  rw [List.getElem?_zip_with]
  by_cases hi : i < m
  · cases i with
    | zero =>
        simp only [List.getElem?_cons_zero, List.getElem?_map,
          List.getElem?_range hi]
        rfl
    | succ i =>
        have hi' : i < m := by omega
        simp only [List.getElem?_cons_succ, List.getElem?_map,
          List.getElem?_range hi, List.getElem?_range hi']
        rfl
  · have h1 : (List.range m)[i]? = none := by
      rw [List.getElem?_eq_none]
      rw [List.length_range]
      omega
    simp only [List.getElem?_map, h1, Option.map_none']
    cases (f 0 :: (List.range m).map fun j => f (j + 1))[i]? <;> rfl

/-- A map to a constant is a replicate. -/
theorem map_const_replicate {α β : Type} (c : β) :
    ∀ l : List α, l.map (fun _ => c) = List.replicate l.length c := by
  intro l
  induction l with
  | nil => rfl
  | cons a t ih => rw [List.map_cons, ih, List.length_cons, List.replicate_succ]

/-- The defaulted last element of a mapped range. -/
theorem getLastD_map_range (g : ℕ → ℕ) (d : ℕ) :
    ∀ m, ((List.range m).map g).getLastD d = if m = 0 then d else g (m - 1) := by
  intro m
  cases m with
  | zero => rfl
  | succ k =>
      rw [List.range_succ, List.map_append]
      simp [List.getLastD_eq_getLast?, List.getLast?_concat]

/-- Splitting the repeat at the occurrence positions of an anchor at unit
offset `p0` yields the rotated unit, once per copy. -/
theorem unitsOf_repeat (u : VPath) (m' p0 : ℕ) (hp0 : p0 < u.length) :
    unitsOf (repeatPath (m' + 1) u)
        ((List.range (m' + 1)).map (fun j => j * u.length + p0)) =
      List.replicate (m' + 1) (u.rotate p0) := by
  have hL : (List.range (m' + 1)).map (fun j => j * u.length + p0) =
      (0 * u.length + p0) :: (List.range m').map (fun j => (j + 1) * u.length + p0) := by
    rw [List.range_succ_eq_map, List.map_cons, List.map_map]
    congr 1
  rw [hL, unitsOf]
  have hzip := zip_shifted_range (fun j => j * u.length + p0) m'
  rw [hzip, List.map_map]
  have hslices : (List.range m').map
      ((fun ft => ((repeatPath (m' + 1) u).drop ft.1).take (ft.2 - ft.1)) ∘
        (fun j => (j * u.length + p0, (j + 1) * u.length + p0))) =
      (List.range m').map (fun _ => u.rotate p0) := by
    apply List.map_congr_left
    intro j hj
    simp only [Function.comp_apply]
    rw [show (j + 1) * u.length + p0 - (j * u.length + p0) = u.length from by
      rw [Nat.succ_mul]; omega]
    exact slice_repeatPath u (m' + 1) j p0 hp0
      (by have := List.mem_range.mp hj; omega)
  rw [hslices, map_const_replicate, List.length_range]
  have hwrap : (repeatPath (m' + 1) u).drop
      (((List.range m').map (fun j => (j + 1) * u.length + p0)).getLastD
        (0 * u.length + p0)) ++
      (repeatPath (m' + 1) u).take (0 * u.length + p0) = u.rotate p0 := by
    rw [show (0 : ℕ) * u.length + p0 = p0 from by simp]
    rw [getLastD_map_range]
    cases m' with
    | zero =>
        rw [if_pos rfl, show (0 : ℕ) + 1 = 1 from rfl, repeatPath_one,
          ← List.rotate_eq_drop_append_take (le_of_lt hp0)]
    | succ k =>
        rw [if_neg (by omega)]
        simp only [Nat.add_sub_cancel]
        exact wrap_repeatPath u (k + 1) p0 hp0
  rw [hwrap, ← List.replicate_succ']

/-- First-occurrence deduplication preserves membership. -/
theorem mem_dedupFirst {α : Type} [DecidableEq α] :
    ∀ {l : List α} {x : α}, x ∈ dedupFirst l ↔ x ∈ l := by
  intro l
  induction l with
  | nil => intro x; rw [dedupFirst]
  | cons a t ih =>
      intro x
      rw [dedupFirst]
      constructor
      · intro h
        rcases List.mem_cons.mp h with rfl | h2
        · exact List.mem_cons_self _ _
        · exact List.mem_cons_of_mem _ (ih.mp (List.mem_filter.mp h2).1)
      · intro h
        rcases List.mem_cons.mp h with rfl | h2
        · exact List.mem_cons_self _ _
        · by_cases hxa : x = a
          · rw [hxa]
            exact List.mem_cons_self _ _
          · refine List.mem_cons_of_mem _ (List.mem_filter.mpr ⟨ih.mpr h2, ?_⟩)
            simpa using hxa

/-- First-occurrence deduplication of a duplicate-free list changes
nothing. -/
theorem dedupFirst_eq_self {α : Type} [DecidableEq α] :
    ∀ {l : List α}, l.Nodup → dedupFirst l = l := by
  intro l
  induction l with
  | nil => intro h; rfl
  | cons a t ih =>
      intro h
      rw [dedupFirst, ih (List.Nodup.of_cons h)]
      rw [List.filter_eq_self.mpr]
      intro x hx
      have hxa : x ≠ a := by
        intro he
        exact (List.nodup_cons.mp h).1 (he ▸ hx)
      exact decide_eq_true hxa

/-- Appending one element only extends the deduplication when new. -/
theorem dedupFirst_append_one {α : Type} [DecidableEq α] :
    ∀ (l : List α) (y : α), dedupFirst (l ++ [y]) =
      if y ∈ l then dedupFirst l else dedupFirst l ++ [y] := by
  intro l
  induction l with
  | nil =>
      intro y
      simp [dedupFirst]
  | cons a t ih =>
      intro y
      rw [List.cons_append, dedupFirst, ih y]
      by_cases hyt : y ∈ t
      · rw [if_pos hyt, if_pos (List.mem_cons_of_mem _ hyt), dedupFirst]
      · rw [if_neg hyt]
        by_cases hya : y = a
        · subst hya
          rw [if_pos (List.mem_cons_self _ _), dedupFirst, List.filter_append]
          simp
        · rw [if_neg (by simp [hya, hyt] : ¬ y ∈ a :: t), dedupFirst,
            List.filter_append]
          simp [hya]

/-- Appending elements already present does not change the
deduplication. -/
theorem dedupFirst_append_subset {α : Type} [DecidableEq α] :
    ∀ (b a : List α), (∀ x ∈ b, x ∈ a) → dedupFirst (a ++ b) = dedupFirst a := by
  intro b
  induction b using List.reverseRecOn with
  | nil =>
      intro a h
      rw [List.append_nil]
  | append_singleton b y ih =>
      intro a h
      rw [← List.append_assoc, dedupFirst_append_one,
        if_pos (List.mem_append.mpr (Or.inl (h y (by simp)))), ih]
      intro x hx
      exact h x (List.mem_append.mpr (Or.inl hx))

/-- The distinct oriented contigs of the repeat are those of one copy. -/
theorem dedupFirst_repeatPath (u : VPath) (m : ℕ) (hm : 1 ≤ m) :
    dedupFirst (repeatPath m u) = dedupFirst u := by
  obtain ⟨m', rfl⟩ : ∃ m', m = m' + 1 := ⟨m - 1, by omega⟩
  rw [repeatPath_succ]
  apply dedupFirst_append_subset
  intro x hx
  exact mem_repeatPath hx

/-- The sorted distinct oriented contigs of the repeat permute the unit. -/
theorem uniqueVne_repeat_perm (u : VPath) (m : ℕ) (hm : 1 ≤ m) (hnd : u.Nodup) :
    (uniqueVneOf (repeatPath m u)).Perm u := by
  rw [uniqueVneOf, dedupFirst_repeatPath u m hm, dedupFirst_eq_self hnd]
  exact sortBy_perm _ u

/-- The sorted distinct oriented contigs of the repeat are nonempty. -/
theorem uniqueVne_repeat_ne_nil (u : VPath) (m : ℕ) (hm : 1 ≤ m) (hnd : u.Nodup)
    (hu0 : u ≠ []) : uniqueVneOf (repeatPath m u) ≠ [] := by
  intro h
  have hperm := uniqueVne_repeat_perm u m hm hnd
  rw [h] at hperm
  exact hu0 hperm.symm.eq_nil

/-- Grouping by occurrence count degenerates when all counts agree. -/
theorem buildCopyToVne_const (cnt : OV → ℕ) (c : ℕ) :
    ∀ l : List OV, l ≠ [] → (∀ v ∈ l, cnt v = c) →
      buildCopyToVne l cnt = [(c, l)] := by
  have aux : ∀ (l : List OV) (pre : List OV), (∀ v ∈ l, cnt v = c) →
      l.foldl (fun acc v => upsertClass acc (cnt v) v) [(c, pre)] = [(c, pre ++ l)] := by
    intro l
    induction l with
    | nil =>
        intro pre h
        rw [List.foldl_nil, List.append_nil]
    | cons v t ih =>
        intro pre h
        rw [List.foldl_cons, h v (List.mem_cons_self _ _),
          show upsertClass [(c, pre)] c v = [(c, pre ++ [v])] from by
            simp [upsertClass],
          ih (pre ++ [v]) (fun w hw => h w (List.mem_cons_of_mem _ hw)),
          List.append_assoc, List.singleton_append]
  intro l hne h
  cases l with
  | nil => exact absurd rfl hne
  | cons v t =>
      rw [buildCopyToVne, List.foldl_cons, h v (List.mem_cons_self _ _),
        show upsertClass [] c v = [(c, [v])] from rfl,
        aux t [v] (fun w hw => h w (List.mem_cons_of_mem _ hw)),
        List.singleton_append]

/-- An element of a duplicate-free path occurs in it exactly once. -/
theorem count_eq_one_of_nodup_mem :
    ∀ {u : VPath} {v : OV}, u.Nodup → v ∈ u → u.count v = 1 := by
  intro u
  induction u with
  | nil =>
      intro v _ hv
      cases hv
  | cons b t ih =>
      intro v hnd hv
      rw [List.count_cons]
      rcases List.mem_cons.mp hv with rfl | hvt
      · rw [List.count_eq_zero.mpr (List.nodup_cons.mp hnd).1]
        simp
      · have hvb : b ≠ v := by
          intro he
          subst he
          exact (List.nodup_cons.mp hnd).1 hvt
        rw [ih (List.Nodup.of_cons hnd) hvt]
        simp [hvb]

/-- Looking up the only key of a singleton association list. -/
theorem lookupList_singleton (c : ℕ) (l : List OV) : lookupList [(c, l)] c = l := by
  simp [lookupList, List.find?]

/-- The copy classes of the repeat of a duplicate-free unit: one class,
holding every distinct oriented contig, at multiplicity `m`. -/
theorem copyToVne_repeat (u : VPath) (m : ℕ) (hm : 1 ≤ m) (hnd : u.Nodup)
    (hu0 : u ≠ []) :
    copyToVneOf (repeatPath m u) = [(m, uniqueVneOf (repeatPath m u))] := by
  rw [copyToVneOf]
  apply buildCopyToVne_const _ _ _ (uniqueVne_repeat_ne_nil u m hm hnd hu0)
  intro v hv
  have hvu : v ∈ u := (uniqueVne_repeat_perm u m hm hnd).mem_iff.mp hv
  rw [count_repeatPath, count_eq_one_of_nodup_mem hnd hvu, Nat.mul_one]

/-- The occurring multiplicities of the repeat: only `m`. -/
theorem copies_repeat (u : VPath) (m : ℕ) (hm : 1 ≤ m) (hnd : u.Nodup)
    (hu0 : u ≠ []) : copiesOf (repeatPath m u) = [m] := by
  rw [copiesOf, copyToVne_repeat u m hm hnd hu0]
  rfl

/-- The per-class length totals of the repeat: a single entry. -/
theorem sumLens_repeat (ctx : Ctx) (u : VPath) (m : ℕ) (hm : 1 ≤ m)
    (hnd : u.Nodup) (hu0 : u ≠ []) :
    sumLensOf ctx (repeatPath m u) =
      [(((uniqueVneOf (repeatPath m u)).filter
          (fun v => (candidateScOf ctx (repeatPath m u)).isEmpty ||
            ctx.sc.contains v.1)).map (fun v => ctx.vlen v.1)).sum] := by
  rw [sumLensOf, copies_repeat u m hm hnd hu0, copyToVne_repeat u m hm hnd hu0]
  simp only [List.map_cons, List.map_nil]
  rw [lookupList_singleton]

/-- The filtered class length total of the repeat is positive when every
contig of the unit has positive length. -/
theorem sumLens_pos (ctx : Ctx) (u : VPath) (m : ℕ) (hm : 1 ≤ m)
    (hnd : u.Nodup) (hu0 : u ≠ []) (hvl : ∀ v ∈ u, 1 ≤ ctx.vlen v.1) :
    1 ≤ (((uniqueVneOf (repeatPath m u)).filter
        (fun v => (candidateScOf ctx (repeatPath m u)).isEmpty ||
          ctx.sc.contains v.1)).map (fun v => ctx.vlen v.1)).sum := by
  obtain ⟨v, hvU, hvcond⟩ : ∃ v, v ∈ uniqueVneOf (repeatPath m u) ∧
      ((candidateScOf ctx (repeatPath m u)).isEmpty ||
        ctx.sc.contains v.1) = true := by
    by_cases hcs : (candidateScOf ctx (repeatPath m u)).isEmpty
    · obtain ⟨v, hv⟩ :=
        List.exists_mem_of_ne_nil _ (uniqueVne_repeat_ne_nil u m hm hnd hu0)
      refine ⟨v, hv, ?_⟩
      rw [hcs]
      rfl
    · have hne : candidateScOf ctx (repeatPath m u) ≠ [] := by
        intro h0
        rw [h0] at hcs
        exact hcs rfl
      obtain ⟨nm, hnm⟩ := List.exists_mem_of_ne_nil _ hne
      rw [candidateScOf] at hnm
      obtain ⟨hnmv, hnmsc⟩ := List.mem_filter.mp hnm
      rw [vNamesOf, mem_dedupFirst] at hnmv
      obtain ⟨v, hvU, hv1⟩ := List.mem_map.mp hnmv
      refine ⟨v, hvU, ?_⟩
      rw [hv1, hnmsc, Bool.or_true]
  have hv1 : 1 ≤ ctx.vlen v.1 :=
    hvl v ((uniqueVne_repeat_perm u m hm hnd).mem_iff.mp hvU)
  have hvf : v ∈ (uniqueVneOf (repeatPath m u)).filter
      (fun v => (candidateScOf ctx (repeatPath m u)).isEmpty ||
        ctx.sc.contains v.1) := List.mem_filter.mpr ⟨hvU, hvcond⟩
  have hvmap := List.mem_map_of_mem (fun v => ctx.vlen v.1) hvf
  exact le_trans hv1 (List.single_le_sum (fun x _ => Nat.zero_le x) _ hvmap)

/-- The unnormalized class weights of the repeat: the single entry
`m * S`. -/
theorem weightsRaw_repeat (ctx : Ctx) (u : VPath) (m : ℕ) (hm : 1 ≤ m)
    (hnd : u.Nodup) (hu0 : u ≠ []) (S : ℕ)
    (hS : sumLensOf ctx (repeatPath m u) = [S]) :
    weightsRawOf ctx (repeatPath m u) = [((m * S : ℕ) : ℚ)] := by
  rw [weightsRawOf, copies_repeat u m hm hnd hu0, hS]
  rfl

/-- Filtering-and-mapping a single element. -/
theorem filterMap_singleton {α β : Type} (f : α → Option β) (a : α) :
    List.filterMap f [a] = (f a).toList := by
  cases h : f a <;> simp [List.filterMap_cons, h]

/-- The candidate unit numbers of the repeat: exactly `m`. -/
theorem candidateNumUnits_repeat (ctx : Ctx) (u : VPath) (m : ℕ) (hm2 : 2 ≤ m)
    (hnd : u.Nodup) (hu0 : u ≠ []) (S : ℕ) (hS1 : 1 ≤ S)
    (hS : sumLensOf ctx (repeatPath m u) = [S])
    (hsim : ctx.minUnitSimilarity < 1) :
    candidateNumUnitsOf ctx (repeatPath m u) = [m] := by
  have hw : weightsRawOf ctx (repeatPath m u) = [((m * S : ℕ) : ℚ)] :=
    weightsRaw_repeat ctx u m (by omega) hnd hu0 S hS
  have hw0 : ((m * S : ℕ) : ℚ) ≠ 0 := by
    rw [Nat.cast_ne_zero]
    exact Nat.mul_ne_zero (by omega) (by omega)
  simp only [candidateNumUnitsOf]
  rw [copies_repeat u m (by omega) hnd hu0, hw, List.sum_cons, List.sum_nil,
    add_zero,
    show ([((m * S : ℕ) : ℚ)].map (fun w => w / ((m * S : ℕ) : ℚ))) = [(1 : ℚ)] from by
      rw [List.map_cons, List.map_nil, div_self hw0],
    show ([m].zip ([(1 : ℚ)])) = [(m, (1 : ℚ))] from rfl,
    show List.enum [(m, (1 : ℚ))] = [((0 : ℕ), (m, (1 : ℚ)))] from rfl,
    filterMap_singleton]
  simp only []
  have hsum : ((([(m, (1:ℚ))].drop (0:ℕ)).filter
      (fun c2 => c2.1 % m = 0)).map Prod.snd).sum = 1 := by
    simp [Nat.mod_self]
  rw [if_pos ⟨by change 1 < m; omega,
    by
      change ctx.minUnitSimilarity ≤
        ((([(m, (1:ℚ))].drop (0:ℕ)).filter
          (fun c2 => c2.1 % m = 0)).map Prod.snd).sum
      rw [hsum]
      exact le_of_lt hsim⟩]
  rfl

/-- The distinct contig ids of the repeat are as many as its distinct
oriented contigs when the unit's names are pairwise distinct. -/
theorem vNames_repeat_len (u : VPath) (m : ℕ) (hm : 1 ≤ m)
    (hnames : (u.map Prod.fst).Nodup) :
    (vNamesOf (repeatPath m u)).length = (uniqueVneOf (repeatPath m u)).length := by
  have hnd : u.Nodup := hnames.of_map
  have hperm := (uniqueVne_repeat_perm u m hm hnd).map Prod.fst
  rw [vNamesOf, dedupFirst_eq_self (hperm.nodup_iff.mpr hnames), List.length_map]

/-- The total length of the distinct oriented contigs is positive. -/
theorem unitLen_pos (ctx : Ctx) (u : VPath) (m : ℕ) (hm : 1 ≤ m)
    (hnd : u.Nodup) (hu0 : u ≠ []) (hvl : ∀ v ∈ u, 1 ≤ ctx.vlen v.1) :
    1 ≤ ((uniqueVneOf (repeatPath m u)).map (fun v => ctx.vlen v.1)).sum := by
  obtain ⟨v, hv⟩ :=
    List.exists_mem_of_ne_nil _ (uniqueVne_repeat_ne_nil u m hm hnd hu0)
  have hv1 : 1 ≤ ctx.vlen v.1 :=
    hvl v ((uniqueVne_repeat_perm u m hm hnd).mem_iff.mp hv)
  exact le_trans hv1 (List.single_le_sum (fun x _ => Nat.zero_le x) _
    (List.mem_map_of_mem (fun v => ctx.vlen v.1) hv))

/-- The total base length of the repeat is the unit's total contig length
scaled by the copy number. -/
theorem totalBaseLen_repeat (ctx : Ctx) (u : VPath) (m : ℕ) (hm : 1 ≤ m)
    (hnd : u.Nodup) :
    totalBaseLenOf ctx (repeatPath m u) =
      ((((uniqueVneOf (repeatPath m u)).map (fun v => ctx.vlen v.1)).sum * m : ℕ) : ℚ) := by
  rw [totalBaseLenOf]
  congr 1
  rw [← List.sum_map_mul_right]
  apply congrArg List.sum
  apply List.map_congr_left
  intro v hv
  have hvu : v ∈ u := (uniqueVne_repeat_perm u m hm hnd).mem_iff.mp hv
  rw [count_repeatPath, count_eq_one_of_nodup_mem hnd hvu, Nat.mul_one]

/-- Zipping all-one shares with the length list pairs one with each
length. -/
theorem zip_replicate_one {β : Type} :
    ∀ l : List β, (List.replicate l.length 1).zip l = l.map (fun x => ((1 : ℕ), x)) := by
  intro l
  induction l with
  | nil => rfl
  | cons a t ih =>
      rw [List.length_cons, List.replicate_succ, List.map_cons, List.zip_cons_cons, ih]

/-- The column minimum of identical rows is that row. -/
theorem zip_self_min (row : List ℕ) :
    (row.zip row).map (fun ab => min ab.1 ab.2) = row := by
  induction row with
  | nil => rfl
  | cons a t ih => rw [List.zip_cons_cons, List.map_cons, ih, Nat.min_self]

/-- Folding the column minimum over identical rows is stationary. -/
theorem foldl_min_rows (row : List ℕ) :
    ∀ k, (List.replicate k row).foldl
      (fun acc r => (acc.zip r).map (fun ab => min ab.1 ab.2)) row = row := by
  intro k
  induction k with
  | zero => rfl
  | succ k ih =>
      rw [List.replicate_succ, List.foldl_cons, zip_self_min, ih]

/-- The column minimum of replicated identical rows. -/
theorem colMin_replicate (row : List ℕ) (m' : ℕ) :
    colMin (List.replicate (m' + 1) row) = row := by
  rw [List.replicate_succ, colMin, foldl_min_rows]

/-- Occurrence counts are invariant under permutation. -/
theorem count_perm {a b : VPath} (h : a.Perm b) (v : OV) :
    a.count v = b.count v := by
  induction h with
  | nil => rfl
  | cons x h ih => rw [List.count_cons, List.count_cons, ih]
  | swap x y l =>
      rw [List.count_cons, List.count_cons, List.count_cons, List.count_cons]
      omega
  | trans h1 h2 ih1 ih2 => rw [ih1, ih2]

/-- The shared-length ratio of the all-units split of the repeat is
exactly one. -/
theorem sharedLen_repeat (ctx : Ctx) (u : VPath) (m p0 : ℕ) (hm : 1 ≤ m)
    (hnd : u.Nodup) (hu0 : u ≠ []) (hvl : ∀ v ∈ u, 1 ≤ ctx.vlen v.1)
    (hp0 : p0 < u.length) :
    sharedLenOf (uniqueVneOf (repeatPath m u))
      ((uniqueVneOf (repeatPath m u)).map (fun v => ctx.vlen v.1))
      (totalBaseLenOf ctx (repeatPath m u)) m
      (List.replicate m (u.rotate p0)) = 1 := by
  obtain ⟨m', rfl⟩ : ∃ m', m = m' + 1 := ⟨m - 1, by omega⟩
  have hrow : (uniqueVneOf (repeatPath (m' + 1) u)).map
      (fun v => (u.rotate p0).count v) =
      List.replicate (uniqueVneOf (repeatPath (m' + 1) u)).length 1 := by
    rw [show (uniqueVneOf (repeatPath (m' + 1) u)).map
        (fun v => (u.rotate p0).count v) =
        (uniqueVneOf (repeatPath (m' + 1) u)).map (fun _ => 1) from ?_,
      map_const_replicate]
    apply List.map_congr_left
    intro v hv
    have hvu : v ∈ u :=
      (uniqueVne_repeat_perm u (m' + 1) hm hnd).mem_iff.mp hv
    rw [count_perm (List.rotate_perm u p0) v, count_eq_one_of_nodup_mem hnd hvu]
  have hL1 : 1 ≤ ((uniqueVneOf (repeatPath (m' + 1) u)).map
      (fun v => ctx.vlen v.1)).sum := unitLen_pos ctx u (m' + 1) hm hnd hu0 hvl
  rw [sharedLenOf, List.map_replicate, hrow, colMin_replicate,
    show (uniqueVneOf (repeatPath (m' + 1) u)).length =
      ((uniqueVneOf (repeatPath (m' + 1) u)).map (fun v => ctx.vlen v.1)).length
      from (List.length_map _ _).symm,
    zip_replicate_one, List.map_map,
    show ((fun ab : ℕ × ℕ => ((ab.1 * ab.2 : ℕ) : ℚ)) ∘ (fun x : ℕ => ((1 : ℕ), x))) =
      (fun x : ℕ => (x : ℚ)) from by
        funext x
        simp,
    ← Nat.cast_list_sum,
    totalBaseLen_repeat ctx u (m' + 1) hm hnd, Nat.cast_mul]
  rw [mul_comm ((((uniqueVneOf (repeatPath (m' + 1) u)).map
      (fun v => ctx.vlen v.1)).sum : ℕ) : ℚ) ((m' + 1 : ℕ) : ℚ)]
  rw [div_self]
  apply mul_ne_zero
  · rw [Nat.cast_ne_zero]
    omega
  · rw [Nat.cast_ne_zero]
    omega

/-- Sorting the canonicalized copies of the rotated unit yields copies of
the unit's canonical representative. -/
theorem schemeOfUnits_replicate (u : VPath) (m p0 : ℕ) :
    schemeOfUnits (List.replicate m (u.rotate p0)) =
      List.replicate m (canonRot u) := by
  rw [schemeOfUnits, List.map_replicate, canonRot_rotate,
    sortBy_replicate _ _ (vpathLt_irrefl _)]

/-- The candidate anchors of the repeat lie among its distinct oriented
contigs and are never exhausted. -/
theorem candidateStarts_repeat (ctx : Ctx) (u : VPath) (m : ℕ) (hm : 1 ≤ m)
    (hnd : u.Nodup) (hu0 : u ≠ []) :
    (∀ s ∈ candidateStartsOf (copyToVneOf (repeatPath m u))
        (candidateScOf ctx (repeatPath m u)) m,
      s ∈ uniqueVneOf (repeatPath m u)) ∧
    candidateStartsOf (copyToVneOf (repeatPath m u))
      (candidateScOf ctx (repeatPath m u)) m ≠ [] := by
  rw [candidateStartsOf, copyToVne_repeat u m hm hnd hu0, lookupList_singleton]
  split
  · exact ⟨fun s hs => hs, uniqueVne_repeat_ne_nil u m hm hnd hu0⟩
  · next hfil =>
      constructor
      · intro s hs
        exact (List.mem_filter.mp hs).1
      · intro h0
        rw [h0] at hfil
        exact hfil rfl

/-- The deduplication walk never returns an empty anchor list. -/
theorem sneDedupGo_ne_nil (len : ℕ) :
    ∀ (rest : List (OV × List ℕ)) (keep : OV × List ℕ) (step : ℕ),
      sneDedupGo len keep step rest ≠ [] := by
  intro rest
  induction rest with
  | nil =>
      intro keep step
      rw [sneDedupGo]
      simp
  | cons c t ih =>
      intro keep step
      rw [sneDedupGo]
      split
      · exact ih keep (step + 1)
      · simp

/-- Nonempty candidate anchors survive into the final anchor list. -/
theorem sneFinalOf_ne_nil (p : VPath) (starts : List OV) (h : starts ≠ []) :
    sneFinalOf p starts ≠ [] := by
  have hsort : sneSortedOf p starts ≠ [] := by
    intro h0
    have hl := congrArg List.length h0
    rw [sneSortedOf, length_sortBy, List.length_map, List.length_nil] at hl
    exact h (List.length_eq_zero.mp hl)
  have hded : sneDedup p.length (sneSortedOf p starts) ≠ [] := by
    cases hs : sneSortedOf p starts with
    | nil => exact absurd hs hsort
    | cons a t =>
        rw [sneDedup]
        exact sneDedupGo_ne_nil p.length t a 1
  rw [sneFinalOf]
  split
  · next hcond =>
      rw [Bool.and_eq_true] at hcond
      have h2 : 1 < (sneDedup p.length (sneSortedOf p starts)).length :=
        of_decide_eq_true hcond.2
      intro h0
      have hlen := congrArg List.length h0
      rw [List.length_tail, List.length_nil] at hlen
      omega
  · exact hded

/-- Recording the same scheme is idempotent. -/
theorem addScheme_idem (acc : List (List VPath)) (sch : List VPath) :
    addScheme (addScheme acc sch) sch = addScheme acc sch := by
  unfold addScheme
  by_cases h : acc.contains sch = true
  · rw [if_pos h, if_pos h]
  · rw [if_neg h,
      if_pos (by simpa using List.mem_append.mpr (Or.inr (List.mem_singleton.mpr rfl)))]

/-- A fold each of whose steps records the same scheme records it once. -/
theorem foldl_const_scheme {β : Type} (sch : List VPath)
    (G : List (List VPath) → β → List (List VPath)) :
    ∀ (l : List β) (acc : List (List VPath)),
      (∀ acc2 x, x ∈ l → G acc2 x = addScheme acc2 sch) → l ≠ [] →
      l.foldl G acc = addScheme acc sch := by
  intro l
  induction l with
  | nil =>
      intro acc _ h0
      exact absurd rfl h0
  | cons a t ih =>
      intro acc hG _
      rw [List.foldl_cons, hG acc a (List.mem_cons_self _ _)]
      cases t with
      | nil => rw [List.foldl_nil]
      | cons b t2 =>
          rw [ih (addScheme acc sch)
            (fun acc2 x hx => hG acc2 x (List.mem_cons_of_mem _ hx)) (by simp),
            addScheme_idem]

/-- The qualified schemes of the `m`-fold repeat: exactly one scheme, the
`m` copies of the unit's canonical rotation. -/
theorem qualifiedSchemes_repeat (ctx : Ctx) (u : VPath) (m : ℕ) (hm2 : 2 ≤ m)
    (hnames : (u.map Prod.fst).Nodup) (hu0 : u ≠ [])
    (hvl : ∀ v ∈ u, 1 ≤ ctx.vlen v.1) (hsim : ctx.minUnitSimilarity < 1) :
    qualifiedSchemesOf ctx (repeatPath m u) = [List.replicate m (canonRot u)] := by
  have hnd : u.Nodup := hnames.of_map
  obtain ⟨S, hS1, hS⟩ : ∃ S : ℕ, 1 ≤ S ∧ sumLensOf ctx (repeatPath m u) = [S] :=
    ⟨_, sumLens_pos ctx u m (by omega) hnd hu0 hvl,
      sumLens_repeat ctx u m (by omega) hnd hu0⟩
  have hcand := candidateNumUnits_repeat ctx u m hm2 hnd hu0 S hS1 hS hsim
  rw [qualifiedSchemesOf, hcand,
    show (([m] : List ℕ).foldl (fun acc nu => schemesForNumUnits ctx (repeatPath m u)
        (uniqueVneOf (repeatPath m u))
        ((uniqueVneOf (repeatPath m u)).map (fun v => ctx.vlen v.1))
        (totalBaseLenOf ctx (repeatPath m u)) (copyToVneOf (repeatPath m u))
        (candidateScOf ctx (repeatPath m u)) nu acc) []) =
      schemesForNumUnits ctx (repeatPath m u) (uniqueVneOf (repeatPath m u))
        ((uniqueVneOf (repeatPath m u)).map (fun v => ctx.vlen v.1))
        (totalBaseLenOf ctx (repeatPath m u)) (copyToVneOf (repeatPath m u))
        (candidateScOf ctx (repeatPath m u)) m [] from rfl,
    schemesForNumUnits,
    show ([List.replicate m (canonRot u)] : List (List VPath)) =
      addScheme [] (List.replicate m (canonRot u)) from rfl]
  apply foldl_const_scheme
  · intro acc2 x hx
    obtain ⟨s, hsS, hxval⟩ := sneFinalOf_mem hx
    have hsU : s ∈ uniqueVneOf (repeatPath m u) :=
      (candidateStarts_repeat ctx u m (by omega) hnd hu0).1 s hsS
    have hsu : s ∈ u := (uniqueVne_repeat_perm u m (by omega) hnd).mem_iff.mp hsU
    obtain ⟨p0, hp0get⟩ := List.mem_iff_getElem?.mp hsu
    have hp0lt : p0 < u.length := by
      rcases List.getElem?_eq_some_iff.mp hp0get with ⟨hh, _⟩
      exact hh
    have hx2 : x.2 = occIdx s (repeatPath m u) := by rw [hxval]
    rw [hx2]
    obtain ⟨m2, rfl⟩ : ∃ m2, m = m2 + 1 := ⟨m - 1, by omega⟩
    rw [occIdx_repeat hnd hp0get (m2 + 1), unitsOf_repeat u m2 p0 hp0lt,
      sharedLen_repeat ctx u (m2 + 1) p0 (by omega) hnd hu0 hvl hp0lt,
      if_pos hsim, schemeOfUnits_replicate]
  · exact sneFinalOf_ne_nil (repeatPath m u)
      (candidateStartsOf (copyToVneOf (repeatPath m u))
        (candidateScOf ctx (repeatPath m u)) m)
      (candidateStarts_repeat ctx u m (by omega) hnd hu0).2

/-- A sub-path of any unit of a scheme belongs to the pooled scheme
sub-paths. -/
theorem mem_schemeSubs (sp : VPath → List VPath) (sch : List VPath) (c : VPath)
    (s : VPath) (hc : c ∈ sch) (hs : s ∈ sp c) : s ∈ schemeSubs sp sch := by
  rw [schemeSubs]
  have aux : ∀ (l : List VPath) (acc : List VPath),
      (s ∈ acc ∨ ∃ c2 ∈ l, s ∈ sp c2) →
      s ∈ l.foldl (fun a u2 => a ++ sp u2) acc := by
    intro l
    induction l with
    | nil =>
        intro acc h
        rcases h with h | ⟨c2, hc2, _⟩
        · exact h
        · cases hc2
    | cons a t ih =>
        intro acc h
        rw [List.foldl_cons]
        apply ih
        rcases h with h | ⟨c2, hc2, hs2⟩
        · exact Or.inl (List.mem_append.mpr (Or.inl h))
        · rcases List.mem_cons.mp hc2 with rfl | hc3
          · exact Or.inl (List.mem_append.mpr (Or.inr hs2))
          · exact Or.inr ⟨c2, hc3, hs2⟩
  exact aux sch [] (Or.inr ⟨c, hc, hs⟩)

/-- Decomposing the `m`-fold repeat of a unit with pairwise-distinct contig
names yields exactly `m` copies of the unit's canonical rotation. -/
theorem decomposeRepeat (ctx : Ctx) (sp : VPath → List VPath) (u : VPath)
    (m : ℕ) (hnames : (u.map Prod.fst).Nodup) (hm2 : 2 ≤ m)
    (hlen4 : 4 ≤ m * u.length) (hvl : ∀ v ∈ u, 1 ≤ ctx.vlen v.1)
    (hsim : ctx.minUnitSimilarity < 1)
    (hsp : ∀ s ∈ sp (repeatPath m u), s ∈ sp (canonRot u)) :
    decomposeHeteroUnits ctx sp (repeatPath m u) =
      .ok (List.replicate m (canonRot u)) := by
  have hnd : u.Nodup := hnames.of_map
  have hu0 : u ≠ [] := by
    intro h
    rw [h] at hlen4
    simp at hlen4
  obtain ⟨S, hS1, hS⟩ : ∃ S : ℕ, 1 ≤ S ∧ sumLensOf ctx (repeatPath m u) = [S] :=
    ⟨_, sumLens_pos ctx u m (by omega) hnd hu0 hvl,
      sumLens_repeat ctx u m (by omega) hnd hu0⟩
  have hw : weightsRawOf ctx (repeatPath m u) = [((m * S : ℕ) : ℚ)] :=
    weightsRaw_repeat ctx u m (by omega) hnd hu0 S hS
  have hcand := candidateNumUnits_repeat ctx u m hm2 hnd hu0 S hS1 hS hsim
  have hqual := qualifiedSchemes_repeat ctx u m hm2 hnames hu0 hvl hsim
  have hL1 := unitLen_pos ctx u m (by omega) hnd hu0 hvl
  have hcover : ((sp (repeatPath m u)).all
      (fun s => (schemeSubs sp (List.replicate m (canonRot u))).contains s)) = true := by
    rw [List.all_eq_true]
    intro s hs
    have hmem : s ∈ schemeSubs sp (List.replicate m (canonRot u)) :=
      mem_schemeSubs sp _ (canonRot u) s
        (List.mem_replicate.mpr ⟨by omega, rfl⟩) (hsp s hs)
    simpa using hmem
  have hunits : circularUnitsOf ctx sp (repeatPath m u) =
      List.replicate m (canonRot u) := by
    rw [circularUnitsOf, hqual, List.foldl_cons, List.foldl_nil, if_pos hcover,
      List.nil_append]
  rw [decomposeHeteroUnits,
    if_neg (by rw [length_repeatPath]; omega),
    if_neg (by
      rw [hw, List.sum_cons, List.sum_nil, add_zero]
      exact Nat.cast_ne_zero.mpr (Nat.mul_ne_zero (by omega) (by omega))),
    if_neg (by rw [hcand]; simp),
    if_neg (fun h => h (vNames_repeat_len u m (by omega) hnames)),
    if_neg (by
      rw [totalBaseLen_repeat ctx u m (by omega) hnd]
      exact Nat.cast_ne_zero.mpr (Nat.mul_ne_zero (by omega) (by omega))),
    if_neg (by
      rw [hunits]
      simp
      omega),
    hunits]

/-- Decomposing a path with no internal repetition returns it unchanged
(given its class weights do not vanish, which would instead raise
`ZeroDivisionError`). -/
theorem decompose_nodup (ctx : Ctx) (sp : VPath → List VPath) (p : VPath)
    (hnd : p.Nodup) (hguard : p.length < 4 ∨ (weightsRawOf ctx p).sum ≠ 0) :
    decomposeHeteroUnits ctx sp p = .ok [p] := by
  by_cases h4 : p.length < 4
  · rw [decomposeHeteroUnits, if_pos h4]
  · have hw : (weightsRawOf ctx p).sum ≠ 0 := hguard.resolve_left h4
    have hp0 : p ≠ [] := by
      intro h
      apply h4
      rw [h]
      simp
    have hperm : (uniqueVneOf p).Perm p := by
      rw [uniqueVneOf, dedupFirst_eq_self hnd]
      exact sortBy_perm _ p
    have hUne : uniqueVneOf p ≠ [] := by
      intro h
      rw [h] at hperm
      exact hp0 hperm.symm.eq_nil
    have hcopy : copyToVneOf p = [(1, uniqueVneOf p)] := by
      rw [copyToVneOf]
      apply buildCopyToVne_const _ _ _ hUne
      intro v hv
      exact count_eq_one_of_nodup_mem hnd (hperm.mem_iff.mp hv)
    have hcopies : copiesOf p = [1] := by
      rw [copiesOf, hcopy]
      rfl
    have hcand : candidateNumUnitsOf ctx p = [] := by
      obtain ⟨x, hx⟩ : ∃ x, sumLensOf ctx p = [x] := by
        rw [sumLensOf, hcopies]
        exact ⟨_, rfl⟩
      obtain ⟨w, hwr⟩ : ∃ w : ℚ, weightsRawOf ctx p = [w] := by
        rw [weightsRawOf, hcopies, hx]
        exact ⟨_, rfl⟩
      simp only [candidateNumUnitsOf]
      rw [hcopies, hwr,
        show (([w] : List ℚ).map (fun w2 => w2 / ([w] : List ℚ).sum)) =
          [w / ([w] : List ℚ).sum] from rfl,
        show (([1] : List ℕ).zip [w / ([w] : List ℚ).sum]) =
          [((1 : ℕ), w / ([w] : List ℚ).sum)] from rfl,
        show List.enum [((1 : ℕ), w / ([w] : List ℚ).sum)] =
          [((0 : ℕ), ((1 : ℕ), w / ([w] : List ℚ).sum))] from rfl,
        filterMap_singleton]
      simp only []
      rw [if_neg (fun hcond => absurd hcond.1 (by change ¬ (1 : ℕ) < 1; omega))]
      rfl
    rw [decomposeHeteroUnits, if_neg h4, if_neg hw, if_pos hcand]

/-- C6: the decomposer round-trip holds in corrected form — feeding it `m`
identical copies of a unit whose contig names are pairwise distinct (with
positive contig lengths and a minimum unit similarity below one, the
unit's sub-paths covering the repeat's) yields exactly `m` units, each the
canonical rotation of the unit; and a path with no internal repetition is
returned unchanged whenever its class weights do not vanish (a length
below four returns immediately; a zero weight total instead raises
`ZeroDivisionError`).  Without the distinct-names requirement the repeat
count is not respected — see the counterexample, where two copies of a
unit that is itself a double repeat come back as four smaller units. -/
theorem decomposeHeteroUnits_roundtrip :
    (∀ (ctx : Ctx) (sp : VPath → List VPath) (u : VPath) (m : ℕ),
      (u.map Prod.fst).Nodup → 2 ≤ m → 4 ≤ m * u.length →
      (∀ v ∈ u, 1 ≤ ctx.vlen v.1) → ctx.minUnitSimilarity < 1 →
      (∀ s ∈ sp (repeatPath m u), s ∈ sp (canonRot u)) →
      decomposeHeteroUnits ctx sp (repeatPath m u) =
        .ok (List.replicate m (canonRot u))) ∧
    (∀ (ctx : Ctx) (sp : VPath → List VPath) (p : VPath),
      p.Nodup → (p.length < 4 ∨ (weightsRawOf ctx p).sum ≠ 0) →
      decomposeHeteroUnits ctx sp p = .ok [p]) :=
  ⟨fun ctx sp u m h1 h2 h3 h4 h5 h6 => decomposeRepeat ctx sp u m h1 h2 h3 h4 h5 h6,
    fun ctx sp p h1 h2 => decompose_nodup ctx sp p h1 h2⟩

/-- Witness for `decomposeHeteroUnits_roundtrip` at a concrete two-contig
unit repeated twice, and a concrete repetition-free path. -/
theorem decomposeHeteroUnits_roundtrip_witness :
    decomposeHeteroUnits ctxC6 (fun _ => []) (repeatPath 2 [(1, true), (2, true)]) =
      .ok (List.replicate 2 (canonRot [(1, true), (2, true)])) ∧
    decomposeHeteroUnits ctxC6 (fun _ => []) [(1, true)] = .ok [[(1, true)]] :=
  ⟨decomposeHeteroUnits_roundtrip.1 ctxC6 (fun _ => []) [(1, true), (2, true)] 2
      (by decide) (by decide) (by decide) (by with_unfolding_all decide)
      (by with_unfolding_all decide) (fun s hs => absurd hs (by simp)),
    decomposeHeteroUnits_roundtrip.2 ctxC6 (fun _ => []) [(1, true)] (by decide)
      (Or.inl (by decide))⟩

/-- C6 counterexample: two identical copies of the circular unit
`1+ 2+ 1+ 2+` do not come back as those two units — the decomposer
returns the four smaller units `1+ 2+` (the finest periodic split), so the
round-trip fails for units with internal repetition. -/
theorem decomposeRepeat_finest_units :
    decomposeHeteroUnits ctxC6 (fun _ => [])
        (repeatPath 2 [(1, true), (2, true), (1, true), (2, true)]) =
      .ok (List.replicate 4 [(1, true), (2, true)]) ∧
    (List.replicate 4 ([(1, true), (2, true)] : VPath)).length ≠ 2 := by
  constructor
  · with_unfolding_all decide
  · decide
